import Mathlib

/-!
ban2fail: driver reconciliation, firewall command batching, live blocklist,
LogType cache, lock and cache sweep, by-country rollup.

A shallow embedding of the parts of `ban2fail.c`, `iptables.c` and `logType.c`
that decide the specification's claims, followed by the theorems.

Conventions of the embedding:

* a C string is the list of its characters before the terminating NUL
  (`CStr`); a `char*` that may be `NULL` is an `Option CStr`;
* `unsigned` values are `Nat` below `2 ^ 32`, `int` values are `Int`; where C
  converts an `int` to `unsigned` before comparing, the conversion is explicit
  (`toUnsigned`);
* a failed `assert` or a failed `ez_` wrapper ends the function with no result.
-/

namespace Ban2fail

/-- A C string: the characters before the terminating NUL. -/
abbrev CStr := List Char

/-! ## ban2fail.c: the driver loop -/

/-- Flag `BLOCKED_FLG` of the anonymous enum of `ban2fail.c`. -/
def BLOCKED_FLG : Nat := 1 <<< 0
/-- Flag `WOULD_BLOCK_FLG`. -/
def WOULD_BLOCK_FLG : Nat := 1 <<< 1
/-- Flag `UNJUST_BLOCK_FLG`. -/
def UNJUST_BLOCK_FLG : Nat := 1 <<< 2
/-- Flag `WHITELIST_FLG`. -/
def WHITELIST_FLG : Nat := 1 <<< 3

/-- The fields of a `LOGENTRY` the driver reads: `addr` and the `unsigned` `count`. -/
structure LOGENTRY where
  addr : CStr
  count : Nat
deriving DecidableEq, Repr

/-- Conversion of an `int` to `unsigned` (32 bit), as C does before comparing
an `unsigned` with an `int`. -/
def toUnsigned (n : Int) : Nat := (n % (2 : Int) ^ 32).toNat

/-- The driver's two vectors, `S.toBlock_vec` and `S.toUnblock_vec`. -/
structure Vecs where
  toBlock_vec : List CStr
  toUnblock_vec : List CStr
deriving DecidableEq, Repr

/-- `PTRVEC_addTail`: append at the tail. -/
def PTRVEC_addTail (v : List CStr) (a : CStr) : List CStr := v ++ [a]

/-- `IPTABLES_is_currently_blocked`: lookup of the address among the keys of the
live blocklist map (`S.addr_map` of `iptables.c`), here the list of its keys. -/
def IPTABLES_is_currently_blocked (live : List CStr) (addr : CStr) : Bool :=
  decide (addr ∈ live)

/-- One iteration of the `for` loop over `leArr` in `main` (ban2fail.c, lines 345-385).
`MAXOFF_allowed` is the threshold policy, `-1` meaning whitelisted.  Returns the
entry's `flags` and the updated vectors.  The comparisons `e->count <= nAllowed`
and `e->count > nAllowed` are between `unsigned` and `int`, so `nAllowed` is
converted to `unsigned`. -/
def processEntry (live : List CStr) (MAXOFF_allowed : CStr → Int) (S : Vecs)
    (e : LOGENTRY) : Nat × Vecs :=
  let flags0 : Nat := 0
  let flags1 := if IPTABLES_is_currently_blocked live e.addr then flags0 ||| BLOCKED_FLG else flags0
  let nAllowed := MAXOFF_allowed e.addr
  let flags2 := if nAllowed = -1 then flags1 ||| WHITELIST_FLG else flags1
  let r3 : Nat × Vecs :=
    if (nAllowed = -1 ∨ e.count ≤ toUnsigned nAllowed) ∧ (flags2 &&& BLOCKED_FLG) ≠ 0 then
      (flags2 ||| UNJUST_BLOCK_FLG, { S with toUnblock_vec := PTRVEC_addTail S.toUnblock_vec e.addr })
    else (flags2, S)
  if (r3.1 &&& BLOCKED_FLG) = 0 ∧ nAllowed ≠ -1 ∧ e.count > toUnsigned nAllowed then
    (r3.1 ||| WOULD_BLOCK_FLG, { r3.2 with toBlock_vec := PTRVEC_addTail r3.2.toBlock_vec e.addr })
  else r3

/-- The whole `for` loop over `leArr`, starting from the given vectors. -/
def processEntries (live : List CStr) (MAXOFF_allowed : CStr → Int) (S : Vecs)
    (leArr : List LOGENTRY) : Vecs :=
  leArr.foldl (fun S e => (processEntry live MAXOFF_allowed S e).2) S

/-- The firewall's blocked set after the summary blocking of `main`
(ban2fail.c, lines 388-418), every emitted command taken as succeeding: unless
`GLB_DONT_IPTABLE_FLG` is set, a non-empty to-block vector is appended (`-A`)
and then a non-empty to-unblock vector is deleted (`-D`). -/
def blockedAfter (dontIptable : Bool) (live : List CStr) (S : Vecs) : List CStr :=
  if dontIptable then live
  else
    let live1 := if S.toBlock_vec.length ≠ 0 then live ++ S.toBlock_vec else live
    if S.toUnblock_vec.length ≠ 0 then live1.filter (fun a => decide (a ∉ S.toUnblock_vec))
    else live1

/-- The reconciliation part of `main`: both vectors start empty
(`PTRVEC_constructor`), the loop fills them, the firewall is updated. -/
def reconcile (dontIptable : Bool) (live : List CStr) (MAXOFF_allowed : CStr → Int)
    (leArr : List LOGENTRY) : List CStr :=
  blockedAfter dontIptable live (processEntries live MAXOFF_allowed ⟨[], []⟩ leArr)

/-- The count the aggregate holds for an address: the count of its entry, zero
offenses when it has none. -/
def aggregateCount (leArr : List LOGENTRY) (a : CStr) : Nat :=
  match leArr.find? (fun e => decide (e.addr = a)) with
  | some e => e.count
  | none => 0

/-- The condition under which the loop puts an entry on the to-block vector
(ban2fail.c, lines 365-367), the flag test resolved. -/
def blockCond (live : List CStr) (allowed : CStr → Int) (e : LOGENTRY) : Prop :=
  IPTABLES_is_currently_blocked live e.addr = false ∧ allowed e.addr ≠ -1 ∧
    e.count > toUnsigned (allowed e.addr)

instance (live : List CStr) (allowed : CStr → Int) (e : LOGENTRY) :
    Decidable (blockCond live allowed e) := by
  unfold blockCond
  infer_instance

/-- The condition under which the loop puts an entry on the to-unblock vector
(ban2fail.c, lines 358-359), the flag test resolved. -/
def unblockCond (live : List CStr) (allowed : CStr → Int) (e : LOGENTRY) : Prop :=
  (allowed e.addr = -1 ∨ e.count ≤ toUnsigned (allowed e.addr)) ∧
    IPTABLES_is_currently_blocked live e.addr = true

instance (live : List CStr) (allowed : CStr → Int) (e : LOGENTRY) :
    Decidable (unblockCond live allowed e) := by
  unfold unblockCond
  infer_instance

/-! ## iptables.c: batched, family-aware command emission -/

/-- The test `strchr(addr, ':')` of `iptables.c`: the address holds a colon (IPv6). -/
def hasColon (addr : CStr) : Bool := decide (':' ∈ addr)

/-- `addrCmp_pvsort`: comparison function for addresses, puts ipv6 at the bottom. -/
def addrCmp_pvsort (addr1 addr2 : CStr) : Int :=
  if hasColon addr2 then
    if !hasColon addr1 then -1 else 0
  else
    if hasColon addr1 then 1 else 0

/-- The two firewall binaries, the macros `IPTABLES` and `IP6TABLES`. -/
inductive Tool where
  | IPTABLES
  | IP6TABLES
deriving DecidableEq, Repr

/-- One command handed to `ez_popen` by `_control_addresses`: the tool, the
flag after the dash (`A` or `D`) and the source addresses in the order they were
printed into `cmd_sb` (the first after `-s`, each further one after a comma). -/
structure Cmd where
  tool : Tool
  cmdFlag : Char
  srcs : List CStr
deriving DecidableEq, Repr

/-- The text of a command as `STR_sprintf` builds it in `cmd_sb`, the two macros
given as strings. -/
def Cmd.str (iptables ip6tables : CStr) (c : Cmd) : CStr :=
  (match c.tool with
    | Tool.IPTABLES => iptables
    | Tool.IP6TABLES => ip6tables)
  ++ " 2>&1 -".toList ++ [c.cmdFlag] ++ " INPUT -s ".toList
  ++ [','].intercalate c.srcs ++ " -j DROP".toList

/-- Modelled from the spec: `PTRVEC_remHead` (the container primitives are not
among the sources): removes and returns the head of the vector, `NULL` when the
vector is empty. -/
def PTRVEC_remHead (vec : List CStr) : Option CStr × List CStr :=
  match vec with
  | [] => (none, [])
  | a :: rest => (some a, rest)

/-- The inner `while` of the IPv4 part (iptables.c, lines 147-154):
`while(i < batch_sz && (addr= PTRVEC_remHead(h_vec)) && !strchr(addr, ':'))`.
The state is `i`, the vector, `addr` and the sources appended so far; the match
on the vector is `PTRVEC_remHead`. -/
def innerLoop4 (batch_sz : Nat) :
    List CStr → Nat → Option CStr → List CStr → List CStr × Option CStr × List CStr
  | [], i, addr, srcs =>
    if i < batch_sz then ([], none, srcs) else ([], addr, srcs)
  | a :: rest, i, addr, srcs =>
    if i < batch_sz then
      if !hasColon a then innerLoop4 batch_sz rest (i + 1) (some a) (srcs ++ [a])
      else (rest, some a, srcs)
    else (a :: rest, addr, srcs)

/-- The outer `while` of the IPv4 part (iptables.c, lines 136-171).  Returns the
commands run, the vector left and the last value of `addr`. -/
def loop4 (cmdFlag : Char) (batch_sz : Nat) :
    Nat → List CStr → Option (List Cmd × List CStr × Option CStr)
  | 0, _ => none
  | fuel + 1, vec =>
    match PTRVEC_remHead vec with
    | (none, vec1) => some ([], vec1, none)
    | (some addr, vec1) =>
      if hasColon addr then some ([], vec1, some addr)
      else
        let r := innerLoop4 batch_sz vec1 1 (some addr) [addr]
        let cmd : Cmd := ⟨Tool.IPTABLES, cmdFlag, r.2.2⟩
        let stop : Bool :=
          match r.2.1 with
          | some a => hasColon a
          | none => false
        if stop then some ([cmd], r.1, r.2.1)
        else
          match loop4 cmdFlag batch_sz fuel r.1 with
          | none => none
          | some (cmds, vec2, addr2) => some (cmd :: cmds, vec2, addr2)

/-- The inner `while` of the IPv6 part (iptables.c, lines 184-189):
`while(i < batch_sz && (addr= PTRVEC_remHead(h_vec)))`. -/
def innerLoop6 (batch_sz : Nat) :
    List CStr → Nat → Option CStr → List CStr → List CStr × Option CStr × List CStr
  | [], i, addr, srcs =>
    if i < batch_sz then ([], none, srcs) else ([], addr, srcs)
  | a :: rest, i, addr, srcs =>
    if i < batch_sz then innerLoop6 batch_sz rest (i + 1) (some a) (srcs ++ [a])
    else (a :: rest, addr, srcs)

/-- The `for` loop of the IPv6 part (iptables.c, lines 174-204):
`for( ; addr; (addr= PTRVEC_remHead(h_vec)))`. -/
def loop6 (cmdFlag : Char) (batch_sz : Nat) :
    Nat → Option CStr → List CStr → Option (List Cmd)
  | 0, _, _ => none
  | _ + 1, none, _ => some []
  | fuel + 1, some addr, vec =>
    let r := innerLoop6 batch_sz vec 1 (some addr) [addr]
    let cmd : Cmd := ⟨Tool.IP6TABLES, cmdFlag, r.2.2⟩
    let h := PTRVEC_remHead r.1
    match loop6 cmdFlag batch_sz fuel h.1 h.2 with
    | none => none
    | some cmds => some (cmd :: cmds)

/-- `_control_addresses` (iptables.c, lines 113-209): the commands run, in
order; no result when the `assert` on `batch_sz` fails.  `PTRVEC_sort` is not
among the sources and is a parameter.  The lazy set-up of the live blocklist at
the top of the function has no part in the commands and is left out.  Each outer
iteration removes at least one address, so the fuel given to the loops is never
used up (`control_addresses_spec`). -/
def _control_addresses (PTRVEC_sort : (CStr → CStr → Int) → List CStr → List CStr)
    (cmdFlag : Char) (h_vec : List CStr) (batch_sz : Nat) : Option (List Cmd) :=
  if batch_sz > 0 ∧ batch_sz ≤ 100 then
    let vec := PTRVEC_sort addrCmp_pvsort h_vec
    match loop4 cmdFlag batch_sz (vec.length + 1) vec with
    | none => none
    | some (cmds4, vec1, addr) =>
      match loop6 cmdFlag batch_sz (vec1.length + 2) addr vec1 with
      | none => none
      | some cmds6 => some (cmds4 ++ cmds6)
  else none

/-- `IPTABLES_block_addresses`. -/
def IPTABLES_block_addresses (PTRVEC_sort : (CStr → CStr → Int) → List CStr → List CStr)
    (h_vec : List CStr) (batch_sz : Nat) : Option (List Cmd) :=
  _control_addresses PTRVEC_sort 'A' h_vec batch_sz

/-- `IPTABLES_unblock_addresses`. -/
def IPTABLES_unblock_addresses (PTRVEC_sort : (CStr → CStr → Int) → List CStr → List CStr)
    (h_vec : List CStr) (batch_sz : Nat) : Option (List Cmd) :=
  _control_addresses PTRVEC_sort 'D' h_vec batch_sz

/-- What the claims assume of `PTRVEC_sort` on a vector: the result is a
rearrangement of the vector in which no element compares greater than a later one. -/
def SortsBy (cmp : CStr → CStr → Int) (vec sorted : List CStr) : Prop :=
  sorted.Perm vec ∧ sorted.Pairwise (fun a b => cmp a b ≤ 0)

/-- A sort by insertion, an instance of `PTRVEC_sort` to evaluate the model with. -/
def insertSorted (cmp : CStr → CStr → Int) (a : CStr) : List CStr → List CStr
  | [] => [a]
  | b :: rest => if cmp a b ≤ 0 then a :: b :: rest else b :: insertSorted cmp a rest

/-- Insertion sort by a comparison function. -/
def insertionSortBy (cmp : CStr → CStr → Int) : List CStr → List CStr
  | [] => []
  | a :: rest => insertSorted cmp a (insertionSortBy cmp rest)

/-- The vector of scenario S6: 21 IPv4 and 4 IPv6 addresses, mixed. -/
def s6Vec : List CStr :=
  (["10.0.0.1", "10.0.0.2", "10.0.0.3", "fe80::1", "10.0.0.4", "10.0.0.5",
    "10.0.0.6", "10.0.0.7", "10.0.0.8", "fe80::2", "10.0.0.9", "10.0.0.10",
    "10.0.0.11", "10.0.0.12", "10.0.0.13", "fe80::3", "10.0.0.14", "10.0.0.15",
    "10.0.0.16", "10.0.0.17", "10.0.0.18", "fe80::4", "10.0.0.19", "10.0.0.20",
    "10.0.0.21"] : List String).map String.toList

/-- Splitting a list into consecutive batches of `b` elements, the last one
possibly shorter (`fuel` bounds the number of batches). -/
def batches (b : Nat) : Nat → List CStr → List (List CStr)
  | 0, _ => []
  | _ + 1, [] => []
  | fuel + 1, x :: xs => (x :: xs).take b :: batches b fuel ((x :: xs).drop b)

/-! ## logType.c: cache names, directory scan, content-addressed cache -/

/-- `strcmp`, by its sign: the end of the list stands for the terminating NUL. -/
def strcmp : CStr → CStr → Int
  | [], [] => 0
  | [], _ :: _ => -1
  | _ :: _, [] => 1
  | a :: s1, b :: s2 => if a < b then -1 else if b < a then 1 else strcmp s1 s2

/-- `strncmp`, by its sign: at most `n` characters are compared. -/
def strncmp : CStr → CStr → Nat → Int
  | _, _, 0 => 0
  | [], [], _ + 1 => 0
  | [], _ :: _, _ + 1 => -1
  | _ :: _, [], _ + 1 => 1
  | a :: s1, b :: s2, n + 1 => if a < b then -1 else if b < a then 1 else strncmp s1 s2 n

/-- An entry returned by `ez_readdir` on the log directory: its name and the
bytes `ez_fread` gives for the file of that name. -/
structure DirEnt where
  d_name : CStr
  bytes : CStr
deriving DecidableEq, Repr

/-- The test of logType.c, lines 94-96, that makes the constructor skip an
entry (`continue`); `pfix_len` is `strlen(self->pfix)`. -/
def skipEntry (pfix : CStr) (d_name : CStr) : Bool :=
  let pfix_len := pfix.length
  decide (strcmp ".".toList d_name = 0 ∨ strcmp "..".toList d_name = 0 ∨
    strncmp pfix d_name pfix_len ≠ 0)

/-- `STR_putc`: append one character to the string buffer. -/
def STR_putc (sb : CStr) (c : Char) : CStr := sb ++ [c]

/-- `STR_append`: append a string to the string buffer. -/
def STR_append (sb : CStr) (s : CStr) : CStr := sb ++ s

/-- The fields of a `LOGTYPE`; `file_map` maps a content hash to the log file's
path and its record. -/
structure LOGTYPE (R : Type) where
  dir : CStr
  pfix : CStr
  patterns_md5sum : CStr
  file_map : List (CStr × CStr × R)

/-- The `for` loop of `LOGTYPE_cacheName` (logType.c, lines 322-329) over the
characters of `self->dir`, `pc` being the rest of the string. -/
def cacheNameDirLoop : CStr → CStr → CStr
  | [], sb => sb
  | c :: pc, sb =>
    if c = '/' then cacheNameDirLoop pc (STR_putc sb ':')
    else cacheNameDirLoop pc (STR_putc sb c)

/-- `LOGTYPE_cacheName` (logType.c, lines 300-339); no result when the `assert`
on `strlen(self->patterns_md5sum)` fails. -/
def LOGTYPE_cacheName {R : Type} (self : LOGTYPE R) : Option CStr :=
  if self.patterns_md5sum.length ≠ 0 then
    let sb : CStr := []
    let sb := cacheNameDirLoop self.dir sb
    let sb := STR_putc sb ';'
    let sb := STR_append sb self.pfix
    let sb := STR_putc sb ';'
    let sb := STR_append sb self.patterns_md5sum
    some sb
  else none

/-- `MD5_Update`: the context is modelled by the bytes fed so far. -/
def MD5_Update (md5ctx : CStr) (data : CStr) : CStr := md5ctx ++ data

/-- The hash of the pattern set (logType.c, lines 67-78): every pattern of
`targetArr` is fed, in order, to one MD5 context; `md5hex` stands for `MD5_Final`
followed by `bytes_2_hexStr` (the 32 hex digits of the digest of the bytes fed). -/
def patternsMd5sum (md5hex : CStr → CStr) (targetArr : List CStr) : CStr :=
  md5hex (targetArr.foldl (fun md5ctx pattern => MD5_Update md5ctx pattern) [])

/-- The fields of a `struct logProtoType` the constructor reads. -/
structure LogProtoType where
  dir : CStr
  pfix : CStr
  targetArr : List CStr
deriving DecidableEq, Repr

/-- The object as the constructor has set it up when it first calls
`LOGTYPE_cacheName` (logType.c, lines 59-78): `dir` and `pfix` copied from the
proto, the pattern hash computed, the file map empty. -/
def protoSelf {R : Type} (md5hex : CStr → CStr) (proto : LogProtoType) : LOGTYPE R :=
  { dir := proto.dir, pfix := proto.pfix,
    patterns_md5sum := patternsMd5sum md5hex proto.targetArr, file_map := [] }

/-- The name of the cache subdirectory the constructor computes for a proto
(logType.c, line 83). -/
def protoCacheName (md5hex : CStr → CStr) (proto : LogProtoType) : Option CStr :=
  LOGTYPE_cacheName (protoSelf (R := Unit) md5hex proto)

/-- Modelled from the spec: a file of a cache subdirectory, by what
`LOGFILE_writeCache` and `LOGFILE_cache_create`
(logFile.c is not among the sources): a cache file written from a record loads
back as that record; a file that fails structural validation loads as nothing. -/
inductive CacheFile (R : Type) where
  | record (r : R)
  | invalid
deriving DecidableEq, Repr

/-- Modelled from the spec: `LOGFILE_cache_create`, which yields the record of
a well-formed cache file and `NULL` otherwise. -/
def LOGFILE_cache_create {R : Type} : CacheFile R → Option R
  | CacheFile.record r => some r
  | CacheFile.invalid => none

/-- The state of one cache subdirectory `<cacheDir>/<cacheName>`: absent, or the
regular files it holds, by name. -/
abbrev CacheSub (R : Type) := Option (List (CStr × CacheFile R))

/-- What the constructor does to the file system and to log files, in order. -/
inductive CtorEvent where
  | loadedFromCache (logFname sumStr : CStr)
  | mkdirCache
  | parsedLog (logFname : CStr)
  | wroteCache (sumStr : CStr)
  | unlinked (name : CStr)
deriving DecidableEq, Repr

/-- The ways the constructor ends without returning. -/
inductive CtorError where
  | cacheNameAssert
  | opendirLogDir
  | cacheCreateAssert
  | logCreateAssert
  | opendirCacheDir
deriving DecidableEq, Repr

/-- The state the constructor threads through its loops: the cache
subdirectory, `self->file_map` and the events so far. -/
structure CtorState (R : Type) where
  cache : CacheSub R
  file_map : List (CStr × CStr × R)
  events : List CtorEvent

/-- `access(CacheFname, F_OK)` succeeds: the subdirectory exists and holds the name. -/
def cacheFileAt {R : Type} (cache : CacheSub R) (sumStr : CStr) : Option (CacheFile R) :=
  match cache with
  | none => none
  | some files => (files.find? (fun f => decide (f.1 = sumStr))).map Prod.snd

/-- `MAP_findStrItem` on `self->file_map`: some item is stored under the key. -/
def MAP_hasStrKey {R : Type} (file_map : List (CStr × CStr × R)) (key : CStr) : Bool :=
  file_map.any (fun kv => decide (kv.1 = key))

/-- The body of the scan loop for one entry that is not skipped (logType.c,
lines 98-162).  `LOGFILE_log_create` parses the log bytes with the proto's
patterns.  Writing the cache file is taken to succeed. -/
def scanEntry {R : Type} (md5hex : CStr → CStr) (LOGFILE_log_create : CStr → Option R)
    (dir : CStr) (st : CtorState R) (entry : DirEnt) : Except CtorError (CtorState R) :=
  let logFname := dir ++ ['/'] ++ entry.d_name
  let sumStr := md5hex entry.bytes
  match cacheFileAt st.cache sumStr with
  | some file =>
    match LOGFILE_cache_create file with
    | none => Except.error CtorError.cacheCreateAssert
    | some f =>
      Except.ok
        { cache := st.cache
          file_map := st.file_map ++ [(sumStr, logFname, f)]
          events := st.events ++ [CtorEvent.loadedFromCache logFname sumStr] }
  | none =>
    let made : List (CStr × CacheFile R) × List CtorEvent :=
      match st.cache with
      | none => ([], [CtorEvent.mkdirCache])
      | some files => (files, [])
    match LOGFILE_log_create entry.bytes with
    | none => Except.error CtorError.logCreateAssert
    | some f =>
      Except.ok
        { cache := some (made.1 ++ [(sumStr, CacheFile.record f)])
          file_map := st.file_map ++ [(sumStr, logFname, f)]
          events := st.events ++ made.2 ++
            [CtorEvent.parsedLog logFname, CtorEvent.wroteCache sumStr] }

/-- The scan loop over the entries `ez_readdir` returns for the log directory
(logType.c, lines 91-163). -/
def scanLoop {R : Type} (md5hex : CStr → CStr) (LOGFILE_log_create : CStr → Option R)
    (dir pfix : CStr) : List DirEnt → CtorState R → Except CtorError (CtorState R)
  | [], st => Except.ok st
  | entry :: rest, st =>
    if skipEntry pfix entry.d_name then
      scanLoop md5hex LOGFILE_log_create dir pfix rest st
    else
      match scanEntry md5hex LOGFILE_log_create dir st entry with
      | Except.error e => Except.error e
      | Except.ok st1 => scanLoop md5hex LOGFILE_log_create dir pfix rest st1

/-- The names `ez_readdir` returns for a cache subdirectory: the two dot
entries and the files. -/
def readdirNames {R : Type} (files : List (CStr × CacheFile R)) : List CStr :=
  ".".toList :: "..".toList :: files.map Prod.fst

/-- The sweep loop (logType.c, lines 175-186) over the names read from the
cache subdirectory: a name that is neither a dot entry nor a key of
`self->file_map` is unlinked. -/
def sweepLoop {R : Type} (file_map : List (CStr × CStr × R)) :
    List CStr → List (CStr × CacheFile R) × List CtorEvent →
    List (CStr × CacheFile R) × List CtorEvent
  | [], acc => acc
  | d_name :: rest, acc =>
    if strcmp ".".toList d_name = 0 ∨ strcmp "..".toList d_name = 0 then
      sweepLoop file_map rest acc
    else if MAP_hasStrKey file_map d_name then sweepLoop file_map rest acc
    else
      sweepLoop file_map rest
        (acc.1.filter (fun f => decide (f.1 ≠ d_name)), acc.2 ++ [CtorEvent.unlinked d_name])

/-- What a completed construction leaves: the object, the cache subdirectory's
name and state, and the events in order. -/
structure CtorResult (R : Type) where
  self : LOGTYPE R
  cacheDname : CStr
  cache : CacheSub R
  events : List CtorEvent

/-- `LOGTYPE_proto_constructor` (logType.c, lines 44-206).  `logDir` is the
log directory `proto->dir` (absent, or its entries as `ez_readdir` returns
them), `cache` the state of this LogType's cache subdirectory.  `ez_opendir` of a
directory that does not exist ends the construction. -/
def LOGTYPE_proto_constructor {R : Type} (md5hex : CStr → CStr)
    (LOGFILE_log_create : CStr → Option R) (proto : LogProtoType)
    (logDir : Option (List DirEnt)) (cache : CacheSub R) :
    Except CtorError (CtorResult R) :=
  let self0 : LOGTYPE R := protoSelf md5hex proto
  match LOGTYPE_cacheName self0 with
  | none => Except.error CtorError.cacheNameAssert
  | some cacheDname =>
    match logDir with
    | none => Except.error CtorError.opendirLogDir
    | some entries =>
      match scanLoop md5hex LOGFILE_log_create self0.dir self0.pfix entries
          { cache := cache, file_map := [], events := [] } with
      | Except.error e => Except.error e
      | Except.ok st =>
        match st.cache with
        | none => Except.error CtorError.opendirCacheDir
        | some files =>
          let swept := sweepLoop st.file_map (readdirNames files) (files, st.events)
          Except.ok
            { self := { self0 with file_map := st.file_map }
              cacheDname := cacheDname
              cache := some swept.1
              events := swept.2 }

/-- The entries of the log directory the constructor scans, in order. -/
def scannedEntries (pfix : CStr) (entries : List DirEnt) : List DirEnt :=
  entries.filter (fun entry => !skipEntry pfix entry.d_name)

/-! ## iptables.c: the live blocklist -/

/-- What a run of the program does to the lock, the cache directory and the
firewall tool, in order. -/
inductive MainEvent where
  | lockAcquired
  | mkdirCacheDir
  | ctor (cacheDname : CStr) (ev : CtorEvent)
  | lockReleased
  | rmdirRecursive (d_name : CStr)
  | popenList (tool : Tool)
  | popenCmd (cmd : Cmd)
deriving DecidableEq, Repr

/-- `isspace` in the C locale: space, and the control characters 9 to 13. -/
def isspace (c : Char) : Bool :=
  decide (c.toNat = 32 ∨ (9 ≤ c.toNat ∧ c.toNat ≤ 13))

/-- `sscanf(lbuf, fmt, addr)` for a format whose only conversion is `%63s`: the
string stored in `addr` when the call returns 1, nothing when it returns 0 or
`EOF`.  A white-space character of the format skips any white space of the input,
any other character must match the next input character, and `%63s` skips white
space and then stores up to 63 characters that are not white space.  Once the
conversion is done the return value is 1 whatever follows it in the format. -/
def sscanf_63s (lbuf : CStr) : CStr → Option CStr
  | [] => none
  | c :: fmt =>
    if "%63s".toList.isPrefixOf (c :: fmt) then
      let tok := ((lbuf.dropWhile isspace).takeWhile (fun d => !isspace d)).take 63
      if tok = [] then none else some tok
    else if isspace c then sscanf_63s (lbuf.dropWhile isspace) fmt
    else
      match lbuf with
      | [] => none
      | d :: rest => if d = c then sscanf_63s rest fmt else none

/-- `MAP_addStrKey` on the live blocklist map, kept as the list of its keys. -/
def MAP_addStrKey (addr_map : List CStr) (key : CStr) : List CStr := addr_map ++ [key]

/-- One of the two `for` loops of the set-up function of iptables.c (lines
50-57 and 61-70) over the lines `ez_fgets` reads from the tool's output: the
lines numbered 0 and 1 are passed over, a line the format does not scan is
passed over, the address scanned from any other line is added to the map. -/
def initLoop (fmt : CStr) : Nat → List CStr → List CStr → List CStr
  | _, [], addr_map => addr_map
  | i, lbuf :: rest, addr_map =>
    if i = 0 ∨ i = 1 then initLoop fmt (i + 1) rest addr_map
    else
      match sscanf_63s lbuf fmt with
      | none => initLoop fmt (i + 1) rest addr_map
      | some addr => initLoop fmt (i + 1) rest (MAP_addStrKey addr_map addr)

/-- The static `S` of iptables.c. -/
structure IptablesS where
  is_init : Bool
  addr_map : List CStr
deriving DecidableEq, Repr

/-- The set-up function of iptables.c (lines 37-73), which populates the live
blocklist: `out4` and `out6` are the lines read from the list command of the IPv4
and of the IPv6 tool.  Returns the static state and the two list commands run. -/
def iptablesInit (out4 out6 : List CStr) : IptablesS × List MainEvent :=
  let addr_map : List CStr := []
  let addr_map := initLoop "DROP all -- %63s 0.0.0.0/0".toList 0 out4 addr_map
  let addr_map := initLoop "DROP all %63s ::/0".toList 0 out6 addr_map
  ({ is_init := true, addr_map := addr_map },
    [MainEvent.popenList Tool.IPTABLES, MainEvent.popenList Tool.IP6TABLES])

/-- The test `if(!S.is_init)` followed by the set-up call, as it stands at
the top of every public function of iptables.c. -/
def ensureInit (out4 out6 : List CStr) (S : IptablesS) : IptablesS × List MainEvent :=
  if !S.is_init then iptablesInit out4 out6 else (S, [])

/-- `IPTABLES_is_currently_blocked` with the static state explicit (iptables.c,
lines 75-92): the answer, the state and the commands run. -/
def isCurrentlyBlockedRun (out4 out6 : List CStr) (S : IptablesS) (addr : CStr) :
    Bool × IptablesS × List MainEvent :=
  let r := ensureInit out4 out6 S
  (IPTABLES_is_currently_blocked r.1.addr_map addr, r.1, r.2)

/-- The `for` loop over `leArr` of `main` with the firewall adapter's state
explicit: each iteration queries the adapter and then does what `processEntry`
does with the live blocklist the adapter holds. -/
def driverLoop (out4 out6 : List CStr) (MAXOFF_allowed : CStr → Int) :
    List LOGENTRY → Vecs × IptablesS × List MainEvent → Vecs × IptablesS × List MainEvent
  | [], st => st
  | e :: rest, st =>
    let q := isCurrentlyBlockedRun out4 out6 st.2.1 e.addr
    let V := (processEntry q.2.1.addr_map MAXOFF_allowed st.1 e).2
    driverLoop out4 out6 MAXOFF_allowed rest (V, q.2.1, st.2.2 ++ q.2.2)

/-- `IPTABLES_block_addresses` and `IPTABLES_unblock_addresses` with the static
state explicit: the set-up call if needed, then the commands of
`_control_addresses`. -/
def controlAddressesRun (PTRVEC_sort : (CStr → CStr → Int) → List CStr → List CStr)
    (out4 out6 : List CStr) (S : IptablesS) (cmdFlag : Char) (h_vec : List CStr)
    (batch_sz : Nat) : Option (IptablesS × List MainEvent) :=
  let r := ensureInit out4 out6 S
  match _control_addresses PTRVEC_sort cmdFlag h_vec batch_sz with
  | none => none
  | some cmds => some (r.1, r.2 ++ cmds.map MainEvent.popenCmd)

/-- The reconciliation part of `main` (ban2fail.c, lines 333-418) by its
firewall commands: the loop over the aggregate `leArr`, then, unless
`GLB_DONT_IPTABLE_FLG` is set, the blocking of a non-empty to-block vector and the
unblocking of a non-empty to-unblock vector in batches of 10. -/
def mainFirewall (PTRVEC_sort : (CStr → CStr → Int) → List CStr → List CStr)
    (out4 out6 : List CStr) (MAXOFF_allowed : CStr → Int) (dontIptable : Bool)
    (leArr : List LOGENTRY) : Option (List MainEvent) :=
  let st := driverLoop out4 out6 MAXOFF_allowed leArr (⟨[], []⟩, ⟨false, []⟩, [])
  let n2Block := st.1.toBlock_vec.length
  let n2Unblock := st.1.toUnblock_vec.length
  if !dontIptable then
    let blocked : Option (IptablesS × List MainEvent) :=
      if n2Block ≠ 0 then
        controlAddressesRun PTRVEC_sort out4 out6 st.2.1 'A' st.1.toBlock_vec 10
      else some (st.2.1, [])
    match blocked with
    | none => none
    | some b =>
      let unblocked : Option (IptablesS × List MainEvent) :=
        if n2Unblock ≠ 0 then
          controlAddressesRun PTRVEC_sort out4 out6 b.1 'D' st.1.toUnblock_vec 10
        else some (b.1, [])
      match unblocked with
      | none => none
      | some u => some (st.2.2 ++ b.2 ++ u.2)
  else some st.2.2

/-! ## ban2fail.c: lock, configuration, sweep of the cache directory -/

/-- The cache directory `G.cacheDir`: its entries by name, each a LogType's
cache subdirectory with its files. -/
abbrev CacheDir (R : Type) := List (CStr × List (CStr × CacheFile R))

/-- The state of the subdirectory of the given name. -/
def cacheSubAt {R : Type} (root : CacheDir R) (name : CStr) : CacheSub R :=
  (root.find? (fun d => decide (d.1 = name))).map Prod.snd

/-- The cache directory once the subdirectory of the given name holds the
given files. -/
def cacheSubSet {R : Type} (root : CacheDir R) (name : CStr)
    (files : List (CStr × CacheFile R)) : CacheDir R :=
  if root.any (fun d => decide (d.1 = name)) then
    root.map (fun d => if d.1 = name then (name, files) else d)
  else root ++ [(name, files)]

/-- The state `main` threads through the configuration: the cache directory,
the keys of `G.logType_map` and the events so far. -/
structure MainState (R : Type) where
  root : CacheDir R
  logType_map : List CStr
  events : List MainEvent

/-- The end of `LOGTYPE_init` (logType.c, lines 266-272) for one configured
LogType, its `DIR`, `PREFIX` and `REGEX` values already read into the proto: the
object is constructed and placed in the global map under its cache name. -/
def LOGTYPE_init {R : Type} (md5hex : CStr → CStr) (LOGFILE_log_create : CStr → Option R)
    (st : MainState R) (cfg : LogProtoType × Option (List DirEnt)) :
    Except CtorError (MainState R) :=
  match protoCacheName md5hex cfg.1 with
  | none => Except.error CtorError.cacheNameAssert
  | some name =>
    match LOGTYPE_proto_constructor md5hex LOGFILE_log_create cfg.1 cfg.2
        (cacheSubAt st.root name) with
    | Except.error e => Except.error e
    | Except.ok r =>
      Except.ok
        { root :=
            match r.cache with
            | some files => cacheSubSet st.root name files
            | none => st.root
          logType_map := st.logType_map ++ [r.cacheDname]
          events := st.events ++ r.events.map (MainEvent.ctor r.cacheDname) }

/-- `configure` (ban2fail.c, lines 498-534) for the `LOGTYPE` symbols: the
initialization function is called for every configured LogType, in order. -/
def configure {R : Type} (md5hex : CStr → CStr) (LOGFILE_log_create : CStr → Option R) :
    List (LogProtoType × Option (List DirEnt)) → MainState R → Except CtorError (MainState R)
  | [], st => Except.ok st
  | cfg :: rest, st =>
    match LOGTYPE_init md5hex LOGFILE_log_create st cfg with
    | Except.error e => Except.error e
    | Except.ok st1 => configure md5hex LOGFILE_log_create rest st1

/-- The sweep loop of `main` (ban2fail.c, lines 303-320) over the names
`ez_readdir` returns for the cache directory: a name whose first character is a
dot is passed over, a name that is a key of `G.logType_map` is passed over, any
other entry is removed with its contents. -/
def sweepCacheDir {R : Type} (logType_map : List CStr) :
    List CStr → CacheDir R × List MainEvent → CacheDir R × List MainEvent
  | [], acc => acc
  | d_name :: rest, acc =>
    if d_name.head? = some '.' then sweepCacheDir logType_map rest acc
    else if decide (d_name ∈ logType_map) then sweepCacheDir logType_map rest acc
    else
      sweepCacheDir logType_map rest
        (acc.1.filter (fun d => decide (d.1 ≠ d_name)),
          acc.2 ++ [MainEvent.rmdirRecursive d_name])

/-- The names `ez_readdir` returns for the cache directory: the two dot
entries and the entries. -/
def readdirCacheDir {R : Type} (root : CacheDir R) : List CStr :=
  ".".toList :: "..".toList :: root.map Prod.fst

/-- The block of `main` that checks the cache for directories not in the
current map (ban2fail.c, lines 299-322). -/
def mainSweep {R : Type} (logType_map : List CStr) (root : CacheDir R) :
    CacheDir R × List MainEvent :=
  sweepCacheDir logType_map (readdirCacheDir root) (root, [])

/-- What a completed run leaves: the cache directory and the events in order. -/
structure MainResult (R : Type) where
  root : CacheDir R
  events : List MainEvent

/-- `main` (ban2fail.c, lines 241-418) from the lock on: the lock is taken,
the cache directory is made if needed, the configuration is realized, the lock is
released, the cache directory is swept, the aggregate is reconciled with the
firewall.  `cacheDir` is the cache directory (absent, or its entries), `cfgs` the
configured LogTypes with their log directories, `leArr` the aggregate
`LOGTYPE_map_addr` builds (logFile.c is not among the sources).  No result when
an assertion or an `ez_` wrapper ends the run. -/
def mainRun {R : Type} (md5hex : CStr → CStr) (LOGFILE_log_create : CStr → Option R)
    (PTRVEC_sort : (CStr → CStr → Int) → List CStr → List CStr)
    (out4 out6 : List CStr) (MAXOFF_allowed : CStr → Int) (dontIptable : Bool)
    (cacheDir : Option (CacheDir R)) (cfgs : List (LogProtoType × Option (List DirEnt)))
    (leArr : List LOGENTRY) : Option (MainResult R) :=
  let st0 : MainState R :=
    match cacheDir with
    | none => { root := [], logType_map := [],
                events := [MainEvent.lockAcquired, MainEvent.mkdirCacheDir] }
    | some root => { root := root, logType_map := [], events := [MainEvent.lockAcquired] }
  match configure md5hex LOGFILE_log_create cfgs st0 with
  | Except.error _ => none
  | Except.ok st1 =>
    let released := st1.events ++ [MainEvent.lockReleased]
    let swept := mainSweep st1.logType_map st1.root
    match mainFirewall PTRVEC_sort out4 out6 MAXOFF_allowed dontIptable leArr with
    | none => none
    | some fw => some { root := swept.1, events := released ++ swept.2 ++ fw }

/-- An event that modifies the cache directory: making the cache directory or
a cache subdirectory, writing a cache file, unlinking a cache file, removing a
cache subdirectory with its contents. -/
def MainEvent.modifiesCache : MainEvent → Bool
  | MainEvent.mkdirCacheDir => true
  | MainEvent.ctor _ CtorEvent.mkdirCache => true
  | MainEvent.ctor _ (CtorEvent.wroteCache _) => true
  | MainEvent.ctor _ (CtorEvent.unlinked _) => true
  | MainEvent.rmdirRecursive _ => true
  | _ => false

/-- An event that invokes the firewall tool. -/
def MainEvent.invokesFirewall : MainEvent → Bool
  | MainEvent.popenList _ => true
  | MainEvent.popenCmd _ => true
  | _ => false

/-! ## ban2fail.c: the by-country rollup -/

/-- The fields of a `LOGENTRY` that `map_byCountries` reads: the country code
(possibly empty) and the `unsigned` count. -/
structure CntryEntry where
  cntry : CStr
  count : Nat
deriving DecidableEq, Repr

/-- `struct cntryStat`. -/
structure cntryStat where
  cntry : CStr
  count : Nat
deriving DecidableEq, Repr

/-- `cs->count += e->count` on the first item of the map stored under the key
(`unsigned` arithmetic wraps at `2 ^ 32`). -/
def addCount (key : CStr) (n : Nat) : List cntryStat → List cntryStat
  | [] => []
  | cs :: rest =>
    if cs.cntry = key then { cs with count := (cs.count + n) % 2 ^ 32 } :: rest
    else cs :: addCount key n rest

/-- `map_byCountries` (ban2fail.c, lines 548-564); the map `h_map` is the list
of its items, each stored under its own `cntry`. -/
def map_byCountries (e : CntryEntry) (h_map : List cntryStat) : List cntryStat :=
  match h_map.find? (fun cs => decide (cs.cntry = e.cntry)) with
  | some _ => addCount e.cntry e.count h_map
  | none => addCount e.cntry e.count (h_map ++ [{ cntry := e.cntry, count := 0 }])

/-- `cntryStat_count_qsort`: qsort functor puts large counts on top. -/
def cntryStat_count_qsort (cs1 cs2 : cntryStat) : Int :=
  if cs1.count > cs2.count then -1
  else if cs1.count < cs2.count then 1
  else 0

/-- The map `byCntry_map` once `MAP_visitAllEntries` has called
`map_byCountries` on every entry of the aggregate (ban2fail.c, line 429). -/
def byCntryMap (addr_map : List CntryEntry) : List cntryStat :=
  addr_map.foldl (fun h_map e => map_byCountries e h_map) []

/-- The by-country listing of `main` (ban2fail.c, lines 421-449): the map is
built by visiting the aggregate entries, its items are fetched into `rtn_vec`,
sorted with `qsort` (the C library's, a parameter) and printed in that order. -/
def byCountryRollup (qsort : (cntryStat → cntryStat → Int) → List cntryStat → List cntryStat)
    (addr_map : List CntryEntry) : List cntryStat :=
  let byCntry_map := byCntryMap addr_map
  let rtn_vec := byCntry_map
  qsort cntryStat_count_qsort rtn_vec

/-- What the claims assume of `qsort` on a vector of items: the result is a
rearrangement of the vector in which no item compares greater than a later one. -/
def SortsStatsBy (cmp : cntryStat → cntryStat → Int) (vec sorted : List cntryStat) : Prop :=
  sorted.Perm vec ∧ sorted.Pairwise (fun a b => cmp a b ≤ 0)

/-- The sum of the counts of the aggregate entries that carry a country code. -/
def cntryTotal (c : CStr) (addr_map : List CntryEntry) : Nat :=
  ((addr_map.filter (fun e => decide (e.cntry = c))).map CntryEntry.count).sum

/-- The line printed for an item: the country code, `--` when it is empty, and
the count. -/
def printCntryStat (cs : cntryStat) : CStr × Nat :=
  (if cs.cntry = [] then "--".toList else cs.cntry, cs.count)

/-- Insertion sort of `cntryStat` items by a comparison function, an instance
of `qsort` to evaluate the model with. -/
def insertStat (cmp : cntryStat → cntryStat → Int) (a : cntryStat) :
    List cntryStat → List cntryStat
  | [] => [a]
  | b :: rest => if cmp a b ≤ 0 then a :: b :: rest else b :: insertStat cmp a rest

/-- Insertion sort by a comparison function. -/
def insertionSortStat (cmp : cntryStat → cntryStat → Int) : List cntryStat → List cntryStat
  | [] => []
  | a :: rest => insertStat cmp a (insertionSortStat cmp rest)

/-! ## Theorems: the driver loop -/

theorem toUnsigned_of_nonneg (n : Int) (h0 : 0 ≤ n) (h1 : n < 2 ^ 31) :
    toUnsigned n = n.toNat := by
  unfold toUnsigned
  rw [Int.emod_eq_of_lt h0 (by omega)]

theorem le_toUnsigned_iff (c : Nat) (n : Int) (h0 : 0 ≤ n) (h1 : n < 2 ^ 31) :
    c ≤ toUnsigned n ↔ (c : Int) ≤ n := by
  rw [toUnsigned_of_nonneg n h0 h1]
  omega

/-- The vectors after one iteration, the flag tests resolved. -/
theorem processEntry_snd (live : List CStr) (allowed : CStr → Int) (S : Vecs) (e : LOGENTRY) :
    (processEntry live allowed S e).2 =
      { toBlock_vec :=
          if blockCond live allowed e then S.toBlock_vec ++ [e.addr] else S.toBlock_vec
        toUnblock_vec :=
          if unblockCond live allowed e then S.toUnblock_vec ++ [e.addr]
          else S.toUnblock_vec } := by
  by_cases hb : IPTABLES_is_currently_blocked live e.addr = true <;>
    by_cases hn : allowed e.addr = -1 <;>
    rcases Nat.lt_or_ge (toUnsigned (allowed e.addr)) e.count with hc | hc <;>
    simp [processEntry, blockCond, unblockCond, hb, hn, hc, Nat.not_le.mpr, Nat.not_lt.mpr,
      PTRVEC_addTail, BLOCKED_FLG, WHITELIST_FLG, UNJUST_BLOCK_FLG, WOULD_BLOCK_FLG]

theorem processEntry_toBlock (live : List CStr) (allowed : CStr → Int) (S : Vecs)
    (e : LOGENTRY) :
    (processEntry live allowed S e).2.toBlock_vec =
      if blockCond live allowed e then S.toBlock_vec ++ [e.addr] else S.toBlock_vec := by
  rw [processEntry_snd]

theorem processEntry_toUnblock (live : List CStr) (allowed : CStr → Int) (S : Vecs)
    (e : LOGENTRY) :
    (processEntry live allowed S e).2.toUnblock_vec =
      if unblockCond live allowed e then S.toUnblock_vec ++ [e.addr]
      else S.toUnblock_vec := by
  rw [processEntry_snd]

/-- C2: for an aggregate entry with live-blocked status `b` and allowance `n`
(a non-negative `int`, or `-1` for WHITELIST), one iteration of the driver's loop
appends the address to the to-block vector exactly when `b` is false, `n` is not
WHITELIST and `count > n`; appends it to the to-unblock vector exactly when `b` is
true and (`n` is WHITELIST or `count <= n`); and never appends it to both. -/
theorem processEntry_appends (live : List CStr) (allowed : CStr → Int) (S : Vecs)
    (e : LOGENTRY) (hlo : -1 ≤ allowed e.addr) (hhi : allowed e.addr < 2 ^ 31) :
    ((processEntry live allowed S e).2.toBlock_vec =
      if IPTABLES_is_currently_blocked live e.addr = false ∧ allowed e.addr ≠ -1 ∧
          (e.count : Int) > allowed e.addr
      then S.toBlock_vec ++ [e.addr] else S.toBlock_vec) ∧
    ((processEntry live allowed S e).2.toUnblock_vec =
      if IPTABLES_is_currently_blocked live e.addr = true ∧
          (allowed e.addr = -1 ∨ (e.count : Int) ≤ allowed e.addr)
      then S.toUnblock_vec ++ [e.addr] else S.toUnblock_vec) ∧
    ¬ ((processEntry live allowed S e).2.toBlock_vec = S.toBlock_vec ++ [e.addr] ∧
       (processEntry live allowed S e).2.toUnblock_vec = S.toUnblock_vec ++ [e.addr]) := by
  rw [processEntry_snd]
  by_cases hn : allowed e.addr = -1
  · by_cases hb : IPTABLES_is_currently_blocked live e.addr = true <;>
      simp [blockCond, unblockCond, hb, hn]
  · have h0 : 0 ≤ allowed e.addr := by omega
    have hle := le_toUnsigned_iff e.count (allowed e.addr) h0 hhi
    have hgt : toUnsigned (allowed e.addr) < e.count ↔ allowed e.addr < (e.count : Int) := by
      rw [← not_le, ← not_le, hle]
    by_cases hb : IPTABLES_is_currently_blocked live e.addr = true <;>
      by_cases hc : (e.count : Int) ≤ allowed e.addr <;>
      simp [blockCond, unblockCond, hb, hn, hgt, hle, hc, not_lt.mpr, not_le.mp]

theorem processEntry_appends_witness :
    (processEntry ["1.2.3.4".toList] (fun _ => 2) ⟨[], []⟩ ⟨"5.6.7.8".toList, 3⟩).2.toBlock_vec
      = ["5.6.7.8".toList] ∧
    (processEntry ["1.2.3.4".toList] (fun _ => 2) ⟨[], []⟩ ⟨"1.2.3.4".toList, 2⟩).2.toUnblock_vec
      = ["1.2.3.4".toList] := by
  have h1 := processEntry_appends ["1.2.3.4".toList] (fun _ => 2) ⟨[], []⟩ ⟨"5.6.7.8".toList, 3⟩
    (by decide) (by decide)
  have h2 := processEntry_appends ["1.2.3.4".toList] (fun _ => 2) ⟨[], []⟩ ⟨"1.2.3.4".toList, 2⟩
    (by decide) (by decide)
  refine ⟨h1.1.trans (by decide), h2.2.1.trans (by decide)⟩

/-! ## Theorems: reconciliation -/

theorem mem_processEntries_toBlock (live : List CStr) (allowed : CStr → Int)
    (leArr : List LOGENTRY) (S : Vecs) (A : CStr) :
    A ∈ (processEntries live allowed S leArr).toBlock_vec ↔
      A ∈ S.toBlock_vec ∨ ∃ e ∈ leArr, e.addr = A ∧ blockCond live allowed e := by
  induction leArr generalizing S with
  | nil => simp [processEntries]
  | cons e rest ih =>
    have hstep : processEntries live allowed S (e :: rest) =
        processEntries live allowed (processEntry live allowed S e).2 rest := rfl
    rw [hstep, ih, processEntry_toBlock]
    by_cases hc : blockCond live allowed e
    · rw [if_pos hc]
      rw [List.mem_append, List.mem_singleton, List.exists_mem_cons_iff]
      constructor
      · rintro ((h | h) | h)
        · exact Or.inl h
        · exact Or.inr (Or.inl ⟨h.symm, hc⟩)
        · exact Or.inr (Or.inr h)
      · rintro (h | ⟨h, _⟩ | h)
        · exact Or.inl (Or.inl h)
        · exact Or.inl (Or.inr h.symm)
        · exact Or.inr h
    · rw [if_neg hc]
      rw [List.exists_mem_cons_iff]
      constructor
      · rintro (h | h)
        · exact Or.inl h
        · exact Or.inr (Or.inr h)
      · rintro (h | ⟨_, h⟩ | h)
        · exact Or.inl h
        · exact absurd h hc
        · exact Or.inr h

theorem mem_processEntries_toUnblock (live : List CStr) (allowed : CStr → Int)
    (leArr : List LOGENTRY) (S : Vecs) (A : CStr) :
    A ∈ (processEntries live allowed S leArr).toUnblock_vec ↔
      A ∈ S.toUnblock_vec ∨ ∃ e ∈ leArr, e.addr = A ∧ unblockCond live allowed e := by
  induction leArr generalizing S with
  | nil => simp [processEntries]
  | cons e rest ih =>
    have hstep : processEntries live allowed S (e :: rest) =
        processEntries live allowed (processEntry live allowed S e).2 rest := rfl
    rw [hstep, ih, processEntry_toUnblock]
    by_cases hc : unblockCond live allowed e
    · rw [if_pos hc]
      rw [List.mem_append, List.mem_singleton, List.exists_mem_cons_iff]
      constructor
      · rintro ((h | h) | h)
        · exact Or.inl h
        · exact Or.inr (Or.inl ⟨h.symm, hc⟩)
        · exact Or.inr (Or.inr h)
      · rintro (h | ⟨h, _⟩ | h)
        · exact Or.inl (Or.inl h)
        · exact Or.inl (Or.inr h.symm)
        · exact Or.inr h
    · rw [if_neg hc]
      rw [List.exists_mem_cons_iff]
      constructor
      · rintro (h | h)
        · exact Or.inl h
        · exact Or.inr (Or.inr h)
      · rintro (h | ⟨_, h⟩ | h)
        · exact Or.inl h
        · exact absurd h hc
        · exact Or.inr h

theorem mem_blockedAfter (live : List CStr) (S : Vecs) (A : CStr) :
    A ∈ blockedAfter false live S ↔
      (A ∈ live ∨ A ∈ S.toBlock_vec) ∧ A ∉ S.toUnblock_vec := by
  unfold blockedAfter
  have h1 : (if S.toBlock_vec.length ≠ 0 then live ++ S.toBlock_vec else live)
      = live ++ S.toBlock_vec := by
    by_cases h : S.toBlock_vec.length ≠ 0
    · simp [h]
    · have : S.toBlock_vec = [] := List.length_eq_zero.mp (not_not.mp h)
      simp [this]
  simp only [Bool.false_eq_true, if_false, h1]
  by_cases h : S.toUnblock_vec.length ≠ 0
  · rw [if_pos h, List.mem_filter, List.mem_append, decide_eq_true_eq]
  · rw [if_neg h, List.mem_append]
    have : S.toUnblock_vec = [] := List.length_eq_zero.mp (not_not.mp h)
    simp [this]

theorem mem_reconcile (live : List CStr) (allowed : CStr → Int) (leArr : List LOGENTRY)
    (A : CStr) :
    A ∈ reconcile false live allowed leArr ↔
      (A ∈ live ∨ ∃ e ∈ leArr, e.addr = A ∧ blockCond live allowed e) ∧
      ¬ ∃ e ∈ leArr, e.addr = A ∧ unblockCond live allowed e := by
  unfold reconcile
  rw [mem_blockedAfter, mem_processEntries_toBlock, mem_processEntries_toUnblock]
  simp

theorem aggregateCount_of_mem (leArr : List LOGENTRY)
    (hnodup : (leArr.map LOGENTRY.addr).Nodup) (e : LOGENTRY) (he : e ∈ leArr) :
    aggregateCount leArr e.addr = e.count := by
  induction leArr with
  | nil => cases he
  | cons x rest ih =>
    rw [List.map_cons, List.nodup_cons] at hnodup
    unfold aggregateCount
    rw [List.find?_cons]
    by_cases hx : x.addr = e.addr
    · simp only [hx, decide_True]
      rcases List.mem_cons.mp he with h | h
      · rw [h]
      · exact absurd (hx ▸ List.mem_map_of_mem LOGENTRY.addr h) hnodup.1
    · simp only [hx, decide_False]
      rcases List.mem_cons.mp he with h | h
      · exact absurd (h ▸ rfl) hx
      · exact ih hnodup.2 h

theorem exists_entry_iff (leArr : List LOGENTRY)
    (hnodup : (leArr.map LOGENTRY.addr).Nodup) (e : LOGENTRY) (he : e ∈ leArr)
    (P : LOGENTRY → Prop) :
    (∃ x ∈ leArr, x.addr = e.addr ∧ P x) ↔ P e := by
  constructor
  · rintro ⟨x, hx, hxe, hP⟩
    have : x = e := List.inj_on_of_nodup_map hnodup hx he hxe
    exact this ▸ hP
  · intro hP
    exact ⟨e, he, rfl, hP⟩

/-- C1, as stated, fails: with `9.9.9.9` blocked by the firewall and absent from
the aggregate (zero offenses, allowance 3), the run leaves `9.9.9.9` blocked
although its count does not exceed its allowance. -/
theorem reconcile_closure_counterexample :
    ¬ ("9.9.9.9".toList ∈
          reconcile false ["9.9.9.9".toList] (fun _ => 3) [⟨"1.2.3.4".toList, 5⟩] ↔
        ((aggregateCount [⟨"1.2.3.4".toList, 5⟩] "9.9.9.9".toList : Int) > 3 ∧
          (3 : Int) ≠ -1)) := by
  decide

/-- C1, amended: after a run with the firewall tool enabled, every address
that has an aggregate entry is blocked iff its count exceeds its allowance and the
allowance is not WHITELIST (`-1`); an address that has no aggregate entry is left
as it was, blocked iff it is in the live blocklist.  The aggregate is a map, so
its addresses are distinct; allowances are `-1` or non-negative `int`s. -/
theorem reconcile_closure (live : List CStr) (allowed : CStr → Int)
    (leArr : List LOGENTRY)
    (hnodup : (leArr.map LOGENTRY.addr).Nodup)
    (hallow : ∀ e ∈ leArr, -1 ≤ allowed e.addr ∧ allowed e.addr < 2 ^ 31) :
    (∀ A ∈ leArr.map LOGENTRY.addr,
      (A ∈ reconcile false live allowed leArr ↔
        ((aggregateCount leArr A : Int) > allowed A ∧ allowed A ≠ -1))) ∧
    (∀ A, A ∉ leArr.map LOGENTRY.addr →
      (A ∈ reconcile false live allowed leArr ↔ A ∈ live)) := by
  constructor
  · intro A hA
    obtain ⟨e, he, rfl⟩ := List.mem_map.mp hA
    rw [aggregateCount_of_mem leArr hnodup e he, mem_reconcile,
      exists_entry_iff leArr hnodup e he (blockCond live allowed),
      exists_entry_iff leArr hnodup e he (unblockCond live allowed)]
    obtain ⟨hlo, hhi⟩ := hallow e he
    have hlive : e.addr ∈ live ↔ IPTABLES_is_currently_blocked live e.addr = true := by
      simp [IPTABLES_is_currently_blocked]
    rw [hlive]
    by_cases hn : allowed e.addr = -1
    · by_cases hb : IPTABLES_is_currently_blocked live e.addr = true <;>
        simp [blockCond, unblockCond, hb, hn]
    · have h0 : 0 ≤ allowed e.addr := by omega
      have hle := le_toUnsigned_iff e.count (allowed e.addr) h0 hhi
      have hgt : toUnsigned (allowed e.addr) < e.count ↔ allowed e.addr < (e.count : Int) := by
        rw [← not_le, ← not_le, hle]
      by_cases hb : IPTABLES_is_currently_blocked live e.addr = true <;>
        by_cases hc : (e.count : Int) ≤ allowed e.addr <;>
        simp [blockCond, unblockCond, hb, hn, hgt, hle, hc, not_lt.mpr, not_le.mp]
  · intro A hA
    rw [mem_reconcile]
    have hno : ∀ (P : LOGENTRY → Prop), ¬ ∃ e ∈ leArr, e.addr = A ∧ P e := by
      rintro P ⟨e, he, hea, _⟩
      exact hA (List.mem_map.mpr ⟨e, he, hea⟩)
    simp [hno]

theorem reconcile_closure_witness :
    ("5.6.7.8".toList ∈ reconcile false ["1.2.3.4".toList]
        (fun a => if a = "1.2.3.4".toList then -1 else 2)
        [⟨"1.2.3.4".toList, 7⟩, ⟨"5.6.7.8".toList, 3⟩]) ∧
    ("1.2.3.4".toList ∉ reconcile false ["1.2.3.4".toList]
        (fun a => if a = "1.2.3.4".toList then -1 else 2)
        [⟨"1.2.3.4".toList, 7⟩, ⟨"5.6.7.8".toList, 3⟩]) := by
  have h := reconcile_closure ["1.2.3.4".toList]
    (fun a => if a = "1.2.3.4".toList then -1 else 2)
    [⟨"1.2.3.4".toList, 7⟩, ⟨"5.6.7.8".toList, 3⟩] (by decide) (by decide)
  constructor
  · exact (h.1 "5.6.7.8".toList (by decide)).mpr (by decide)
  · exact fun hmem => absurd ((h.1 "1.2.3.4".toList (by decide)).mp hmem) (by decide)

/-! ## Theorems: the loops of `_control_addresses` -/

theorem innerLoop4_full (b : Nat) (t rem : List CStr) (i : Nat) (a0 : CStr)
    (srcs : List CStr) (ht : ∀ x ∈ t, hasColon x = false) (ha0 : hasColon a0 = false)
    (hi : i + t.length = b) :
    ∃ a1, hasColon a1 = false ∧
      innerLoop4 b (t ++ rem) i (some a0) srcs = (rem, some a1, srcs ++ t) := by
  induction t generalizing i a0 srcs with
  | nil =>
    have hlt : ¬ i < b := by simp at hi; omega
    refine ⟨a0, ha0, ?_⟩
    cases rem <;> simp [innerLoop4, hlt]
  | cons x t ih =>
    have hlt : i < b := by simp at hi; omega
    have hx : hasColon x = false := ht x (List.mem_cons_self _ _)
    obtain ⟨a1, ha1, h⟩ := ih (i + 1) x (srcs ++ [x])
      (fun y hy => ht y (List.mem_cons_of_mem _ hy)) hx (by simp at hi ⊢; omega)
    refine ⟨a1, ha1, ?_⟩
    simp [innerLoop4, hlt, hx, h]

theorem innerLoop4_end_nil (b : Nat) (t : List CStr) (i : Nat) (addr : Option CStr)
    (srcs : List CStr) (ht : ∀ x ∈ t, hasColon x = false) (hi : i + t.length < b) :
    innerLoop4 b t i addr srcs = ([], none, srcs ++ t) := by
  induction t generalizing i addr srcs with
  | nil =>
    have hlt : i < b := by simp at hi; omega
    simp [innerLoop4, hlt]
  | cons x t ih =>
    have hlt : i < b := by simp at hi; omega
    have hx : hasColon x = false := ht x (List.mem_cons_self _ _)
    have h := ih (i + 1) (some x) (srcs ++ [x])
      (fun y hy => ht y (List.mem_cons_of_mem _ hy)) (by simp at hi ⊢; omega)
    simp [innerLoop4, hlt, hx, h]

theorem innerLoop4_end_colon (b : Nat) (t : List CStr) (c : CStr) (rem : List CStr)
    (i : Nat) (addr : Option CStr) (srcs : List CStr)
    (ht : ∀ x ∈ t, hasColon x = false) (hc : hasColon c = true) (hi : i + t.length < b) :
    innerLoop4 b (t ++ c :: rem) i addr srcs = (rem, some c, srcs ++ t) := by
  induction t generalizing i addr srcs with
  | nil =>
    have hlt : i < b := by simp at hi; omega
    simp [innerLoop4, hlt, hc]
  | cons x t ih =>
    have hlt : i < b := by simp at hi; omega
    have hx : hasColon x = false := ht x (List.mem_cons_self _ _)
    have h := ih (i + 1) (some x) (srcs ++ [x])
      (fun y hy => ht y (List.mem_cons_of_mem _ hy)) (by simp at hi ⊢; omega)
    simp [innerLoop4, hlt, hx, h]

theorem innerLoop6_full (b : Nat) (t rem : List CStr) (i : Nat) (addr : Option CStr)
    (srcs : List CStr) (hi : i + t.length = b) :
    (innerLoop6 b (t ++ rem) i addr srcs).1 = rem ∧
      (innerLoop6 b (t ++ rem) i addr srcs).2.2 = srcs ++ t := by
  induction t generalizing i addr srcs with
  | nil =>
    have hlt : ¬ i < b := by simp at hi; omega
    cases rem <;> simp [innerLoop6, hlt]
  | cons x t ih =>
    have hlt : i < b := by simp at hi; omega
    have h := ih (i + 1) (some x) (srcs ++ [x]) (by simp at hi ⊢; omega)
    simp [innerLoop6, hlt, h]

theorem innerLoop6_end (b : Nat) (t : List CStr) (i : Nat) (addr : Option CStr)
    (srcs : List CStr) (hi : i + t.length < b) :
    innerLoop6 b t i addr srcs = ([], none, srcs ++ t) := by
  induction t generalizing i addr srcs with
  | nil =>
    have hlt : i < b := by simp at hi; omega
    simp [innerLoop6, hlt]
  | cons x t ih =>
    have hlt : i < b := by simp at hi; omega
    have h := ih (i + 1) (some x) (srcs ++ [x]) (by simp at hi ⊢; omega)
    simp [innerLoop6, hlt, h]

theorem batches_nil (b f : Nat) : batches b f [] = [] := by
  cases f <;> rfl

theorem batches_fuel (b : Nat) (f f' : Nat) (l : List CStr)
    (hf : l.length ≤ f) (hf' : l.length ≤ f') (hb : 1 ≤ b) :
    batches b f l = batches b f' l := by
  induction f generalizing f' l with
  | zero =>
    have : l = [] := List.length_eq_zero.mp (by omega)
    subst this
    rw [batches_nil, batches_nil]
  | succ f ih =>
    cases l with
    | nil => rw [batches_nil, batches_nil]
    | cons x xs =>
      cases f' with
      | zero => simp at hf'
      | succ f' =>
        simp only [batches]
        have hd : ((x :: xs).drop b).length ≤ xs.length := by
          simp only [List.length_drop, List.length_cons]
          omega
        simp only [List.length_cons] at hf hf'
        rw [ih f' ((x :: xs).drop b) (by omega) (by omega)]

/-- The IPv4 commands the IPv4 addresses `xs` are batched into. -/
theorem loop4_spec (cmdFlag : Char) (b' : Nat) (fuel : Nat) (xs tail : List CStr)
    (hxs : ∀ x ∈ xs, hasColon x = false) (htail : ∀ c ∈ tail.head?, hasColon c = true)
    (hfuel : xs.length + 1 ≤ fuel) :
    loop4 cmdFlag (b' + 1) fuel (xs ++ tail) =
      some ((batches (b' + 1) xs.length xs).map (fun srcs => Cmd.mk Tool.IPTABLES cmdFlag srcs),
        (PTRVEC_remHead tail).2, (PTRVEC_remHead tail).1) := by
  induction fuel generalizing xs with
  | zero => omega
  | succ fuel ih =>
    cases xs with
    | nil =>
      cases tail with
      | nil => simp [loop4, PTRVEC_remHead, batches]
      | cons c rem =>
        have hc : hasColon c = true := htail c (by simp)
        simp [loop4, PTRVEC_remHead, batches, hc]
    | cons a xs' =>
      have ha : hasColon a = false := hxs a (List.mem_cons_self _ _)
      have hxs' : ∀ x ∈ xs', hasColon x = false := fun y hy => hxs y (List.mem_cons_of_mem _ hy)
      simp only [List.length_cons] at hfuel
      by_cases hlen : b' ≤ xs'.length
      · obtain ⟨a1, ha1, h⟩ := innerLoop4_full (b' + 1) (xs'.take b') (xs'.drop b' ++ tail) 1 a [a]
          (fun y hy => hxs' y (List.mem_of_mem_take hy)) ha
          (by rw [List.length_take]; omega)
        rw [← List.append_assoc, List.take_append_drop] at h
        have hrec := ih (xs'.drop b') (fun y hy => hxs' y (List.mem_of_mem_drop hy))
          (by rw [List.length_drop]; omega)
        have hbat : batches (b' + 1) (xs'.length + 1) (a :: xs') =
            (a :: xs'.take b') :: batches (b' + 1) (xs'.drop b').length (xs'.drop b') := by
          simp only [batches, List.take_succ_cons, List.drop_succ_cons]
          rw [batches_fuel (b' + 1) xs'.length (xs'.drop b').length (xs'.drop b')
            (by rw [List.length_drop]; omega) (le_refl _) (by omega)]
        simp only [List.cons_append, loop4, PTRVEC_remHead, ha, Bool.false_eq_true, if_false,
          h, ha1, hrec, List.length_cons, hbat, List.map_cons, List.singleton_append,
          List.nil_append]
      · have hlt : 1 + xs'.length < b' + 1 := by omega
        have hbat : batches (b' + 1) (xs'.length + 1) (a :: xs') = [a :: xs'] := by
          simp only [batches, List.take_succ_cons, List.drop_succ_cons]
          rw [List.take_of_length_le (by omega), List.drop_of_length_le (by omega), batches_nil]
        cases tail with
        | nil =>
          have h := innerLoop4_end_nil (b' + 1) xs' 1 (some a) [a] hxs' hlt
          have hrec := ih [] (by simp) (by simp; omega)
          simp only [List.nil_append, PTRVEC_remHead, List.length_nil, batches_nil,
            List.map_nil] at hrec
          simp only [List.append_nil, loop4, PTRVEC_remHead, ha, Bool.false_eq_true, if_false,
            h, hrec, List.length_cons, hbat, List.map_cons, List.map_nil,
            List.singleton_append, List.nil_append]
        | cons c rem =>
          have hc : hasColon c = true := htail c (by simp)
          have h := innerLoop4_end_colon (b' + 1) xs' c rem 1 (some a) [a] hxs' hc hlt
          simp only [List.cons_append, loop4, PTRVEC_remHead, ha, Bool.false_eq_true, if_false,
            h, hc, if_true, List.length_cons, hbat, List.map_cons, List.map_nil,
            List.singleton_append, List.nil_append]

theorem loop6_none (cmdFlag : Char) (b fuel : Nat) (vec : List CStr) (hfuel : 1 ≤ fuel) :
    loop6 cmdFlag b fuel none vec = some [] := by
  cases fuel with
  | zero => omega
  | succ fuel => rfl

/-- The IPv6 commands the addresses left in the vector are batched into. -/
theorem loop6_spec (cmdFlag : Char) (b' : Nat) (fuel : Nat) (c : CStr) (vec : List CStr)
    (hfuel : vec.length + 2 ≤ fuel) :
    loop6 cmdFlag (b' + 1) fuel (some c) vec =
      some ((batches (b' + 1) (vec.length + 1) (c :: vec)).map
        (fun srcs => Cmd.mk Tool.IP6TABLES cmdFlag srcs)) := by
  induction fuel generalizing c vec with
  | zero => omega
  | succ fuel ih =>
    by_cases hlen : b' ≤ vec.length
    · have h := innerLoop6_full (b' + 1) (vec.take b') (vec.drop b') 1 (some c) [c]
        (by rw [List.length_take]; omega)
      rw [List.take_append_drop] at h
      have hdl : (vec.drop b').length ≤ vec.length := by rw [List.length_drop]; omega
      cases hd : vec.drop b' with
      | nil =>
        rw [hd] at h
        have hbat : batches (b' + 1) (vec.length + 1) (c :: vec) = [c :: vec.take b'] := by
          simp only [batches, List.take_succ_cons, List.drop_succ_cons, hd, batches_nil]
        simp only [loop6, h.1, h.2, PTRVEC_remHead, loop6_none cmdFlag (b' + 1) fuel []
          (by omega), hbat, List.map_cons, List.map_nil, List.singleton_append]
      | cons d rest =>
        rw [hd] at h hdl
        simp only [List.length_cons] at hdl
        have hrec := ih d rest (by omega)
        have hbat : batches (b' + 1) (vec.length + 1) (c :: vec) =
            (c :: vec.take b') :: batches (b' + 1) (rest.length + 1) (d :: rest) := by
          rw [batches_fuel (b' + 1) (rest.length + 1) vec.length (d :: rest)
            (by simp) (by simp only [List.length_cons]; omega) (by omega)]
          simp only [batches, List.take_succ_cons, List.drop_succ_cons, hd]
        simp only [loop6, h.1, h.2, PTRVEC_remHead, hrec, hbat, List.map_cons,
          List.singleton_append]
    · have h := innerLoop6_end (b' + 1) vec 1 (some c) [c] (by omega)
      have hbat : batches (b' + 1) (vec.length + 1) (c :: vec) = [c :: vec] := by
        simp only [batches, List.take_succ_cons, List.drop_succ_cons]
        rw [List.take_of_length_le (by omega), List.drop_of_length_le (by omega), batches_nil]
      simp only [loop6, h, PTRVEC_remHead, loop6_none cmdFlag (b' + 1) fuel [] (by omega),
        hbat, List.map_cons, List.map_nil, List.singleton_append]

/-- A vector ordered by `addrCmp_pvsort` is its colon-free addresses followed
by its addresses with a colon. -/
theorem sorted_split (l : List CStr)
    (h : l.Pairwise (fun a b => addrCmp_pvsort a b ≤ 0)) :
    l = l.filter (fun a => !hasColon a) ++ l.filter (fun a => hasColon a) := by
  induction l with
  | nil => rfl
  | cons a rest ih =>
    rw [List.pairwise_cons] at h
    have ih' := ih h.2
    by_cases ha : hasColon a = true
    · have hall : ∀ x ∈ rest, hasColon x = true := by
        intro x hx
        have := h.1 x hx
        by_contra hx'
        simp [addrCmp_pvsort, ha, hx'] at this
      have h4 : rest.filter (fun a => !hasColon a) = [] := by
        rw [List.filter_eq_nil_iff]
        intro x hx
        simp [hall x hx]
      have h6 : rest.filter (fun a => hasColon a) = rest := by
        rw [List.filter_eq_self]
        exact hall
      simp [List.filter_cons, ha, h4, h6]
    · have ha' : hasColon a = false := by simpa using ha
      simp only [List.filter_cons, ha', Bool.not_false, if_true, Bool.false_eq_true, if_false,
        List.cons_append]
      rw [← ih']

theorem control_addresses_of_split
    (PTRVEC_sort : (CStr → CStr → Int) → List CStr → List CStr)
    (cmdFlag : Char) (h_vec : List CStr) (b' : Nat) (hb2 : b' + 1 ≤ 100) (xs ys : List CStr)
    (hsplit : PTRVEC_sort addrCmp_pvsort h_vec = xs ++ ys)
    (hxs : ∀ x ∈ xs, hasColon x = false) (hys : ∀ y ∈ ys, hasColon y = true) :
    _control_addresses PTRVEC_sort cmdFlag h_vec (b' + 1) =
      some ((batches (b' + 1) xs.length xs).map
          (fun srcs => Cmd.mk Tool.IPTABLES cmdFlag srcs) ++
        (batches (b' + 1) ys.length ys).map
          (fun srcs => Cmd.mk Tool.IP6TABLES cmdFlag srcs)) := by
  unfold _control_addresses
  rw [if_pos ⟨by omega, hb2⟩]
  simp only [hsplit]
  have htail : ∀ c ∈ ys.head?, hasColon c = true := by
    intro c hc
    exact hys c (List.mem_of_mem_head? hc)
  rw [loop4_spec cmdFlag b' ((xs ++ ys).length + 1) xs ys hxs htail
    (by rw [List.length_append]; omega)]
  cases ys with
  | nil =>
    simp only [PTRVEC_remHead, List.length_nil, batches_nil, List.map_nil, List.append_nil]
    rw [loop6_none cmdFlag (b' + 1) _ [] (by omega)]
    simp only [List.append_nil]
  | cons c rem =>
    simp only [PTRVEC_remHead, List.length_cons]
    rw [loop6_spec cmdFlag b' (rem.length + 2) c rem (le_refl _)]

/-- The commands of `_control_addresses`: the batches of the colon-free
addresses for the IPv4 tool, then the batches of the other addresses for the IPv6
tool. -/
theorem control_addresses_spec (PTRVEC_sort : (CStr → CStr → Int) → List CStr → List CStr)
    (cmdFlag : Char) (h_vec : List CStr) (b : Nat) (hb1 : 1 ≤ b) (hb2 : b ≤ 100)
    (hsort : (PTRVEC_sort addrCmp_pvsort h_vec).Pairwise (fun a b => addrCmp_pvsort a b ≤ 0)) :
    ∃ xs ys, PTRVEC_sort addrCmp_pvsort h_vec = xs ++ ys ∧
      (∀ x ∈ xs, hasColon x = false) ∧ (∀ y ∈ ys, hasColon y = true) ∧
      _control_addresses PTRVEC_sort cmdFlag h_vec b =
        some ((batches b xs.length xs).map (fun srcs => Cmd.mk Tool.IPTABLES cmdFlag srcs) ++
          (batches b ys.length ys).map (fun srcs => Cmd.mk Tool.IP6TABLES cmdFlag srcs)) := by
  obtain ⟨b', rfl⟩ : ∃ b', b = b' + 1 := ⟨b - 1, by omega⟩
  have hsplit := sorted_split _ hsort
  have hxs : ∀ x ∈ (PTRVEC_sort addrCmp_pvsort h_vec).filter (fun a => !hasColon a),
      hasColon x = false := by
    intro x hx
    simpa using (List.mem_filter.mp hx).2
  have hys : ∀ y ∈ (PTRVEC_sort addrCmp_pvsort h_vec).filter (fun a => hasColon a),
      hasColon y = true := by
    intro y hy
    simpa using (List.mem_filter.mp hy).2
  exact ⟨_, _, hsplit, hxs, hys,
    control_addresses_of_split PTRVEC_sort cmdFlag h_vec b' hb2 _ _ hsplit hxs hys⟩

theorem batches_flatten (b : Nat) (hb : 1 ≤ b) (f : Nat) (l : List CStr)
    (hf : l.length ≤ f) : (batches b f l).flatten = l := by
  induction f generalizing l with
  | zero =>
    have : l = [] := List.length_eq_zero.mp (by omega)
    subst this
    rfl
  | succ f ih =>
    cases l with
    | nil => rfl
    | cons x xs =>
      simp only [batches, List.flatten_cons]
      rw [ih ((x :: xs).drop b) (by
        simp only [List.length_drop, List.length_cons] at hf ⊢
        omega), List.take_append_drop]

theorem batches_mem (b : Nat) (hb : 1 ≤ b) (f : Nat) (l : List CStr) :
    ∀ s ∈ batches b f l, 1 ≤ s.length ∧ s.length ≤ b ∧ ∀ x ∈ s, x ∈ l := by
  induction f generalizing l with
  | zero => intro s hs; simp [batches] at hs
  | succ f ih =>
    cases l with
    | nil => intro s hs; simp [batches] at hs
    | cons x xs =>
      intro s hs
      simp only [batches, List.mem_cons] at hs
      rcases hs with rfl | hs
      · refine ⟨?_, ?_, fun y hy => List.mem_of_mem_take hy⟩
        · rw [List.length_take, List.length_cons]; omega
        · rw [List.length_take]; omega
      · obtain ⟨h1, h2, h3⟩ := ih _ s hs
        exact ⟨h1, h2, fun y hy => List.mem_of_mem_drop (h3 y hy)⟩

theorem batches_length (b : Nat) (hb : 1 ≤ b) (f : Nat) (l : List CStr)
    (hf : l.length ≤ f) : (batches b f l).length = (l.length + b - 1) / b := by
  induction f generalizing l with
  | zero =>
    have : l = [] := List.length_eq_zero.mp (by omega)
    subst this
    simp only [batches, List.length_nil, Nat.zero_add]
    exact (Nat.div_eq_of_lt (by omega)).symm
  | succ f ih =>
    cases l with
    | nil =>
      simp only [batches, List.length_nil, Nat.zero_add]
      exact (Nat.div_eq_of_lt (by omega)).symm
    | cons x xs =>
      simp only [batches, List.length_cons]
      rw [ih ((x :: xs).drop b) (by
        simp only [List.length_drop, List.length_cons] at hf ⊢
        omega)]
      simp only [List.length_drop, List.length_cons]
      have e1 : xs.length + 1 + b - 1 = xs.length + b := by omega
      rw [e1, Nat.add_div_right _ (by omega)]
      by_cases hlt : xs.length + 1 ≤ b
      · have e2 : xs.length + 1 - b + b - 1 = b - 1 := by omega
        rw [e2, Nat.div_eq_of_lt (by omega), Nat.div_eq_of_lt (by omega)]
      · have e2 : xs.length + 1 - b + b - 1 = xs.length := by omega
        rw [e2]

theorem batches_dropLast (b : Nat) (f : Nat) (l : List CStr) :
    ∀ s ∈ (batches b f l).dropLast, s.length = b := by
  induction f generalizing l with
  | zero => intro s hs; simp [batches] at hs
  | succ f ih =>
    cases l with
    | nil => intro s hs; simp [batches] at hs
    | cons x xs =>
      intro s hs
      simp only [batches] at hs
      cases hrest : batches b f ((x :: xs).drop b) with
      | nil => rw [hrest] at hs; simp at hs
      | cons r rs =>
        rw [hrest, List.dropLast_cons₂, List.mem_cons] at hs
        rcases hs with rfl | hs
        · have hne : (x :: xs).drop b ≠ [] := by
            intro h
            rw [h, batches_nil] at hrest
            cases hrest
          have : b < (x :: xs).length := by
            by_contra hcon
            exact hne (List.drop_of_length_le (by omega))
          rw [List.length_take]
          omega
        · exact ih ((x :: xs).drop b) s (by rw [hrest]; exact hs)

/-! ## Theorems: family partitioning and batching -/

/-- C3: for every vector of addresses and every batch size between 1 and 100
(`PTRVEC_sort` ordering the vector by `addrCmp_pvsort`), `_control_addresses`
returns, and no command it builds holds both an address with a colon and one
without; every command for the IPv4 tool carries only colon-free addresses and
every command for the IPv6 tool carries only addresses with a colon. -/
theorem control_addresses_family_partition
    (PTRVEC_sort : (CStr → CStr → Int) → List CStr → List CStr)
    (cmdFlag : Char) (h_vec : List CStr) (b : Nat) (hb1 : 1 ≤ b) (hb2 : b ≤ 100)
    (hsort : SortsBy addrCmp_pvsort h_vec (PTRVEC_sort addrCmp_pvsort h_vec)) :
    ∃ cmds, _control_addresses PTRVEC_sort cmdFlag h_vec b = some cmds ∧
      ∀ c ∈ cmds,
        ¬ ((∃ a ∈ c.srcs, hasColon a = true) ∧ (∃ a ∈ c.srcs, hasColon a = false)) ∧
        (c.tool = Tool.IPTABLES → ∀ a ∈ c.srcs, hasColon a = false) ∧
        (c.tool = Tool.IP6TABLES → ∀ a ∈ c.srcs, hasColon a = true) := by
  obtain ⟨xs, ys, _, hxs, hys, hres⟩ :=
    control_addresses_spec PTRVEC_sort cmdFlag h_vec b hb1 hb2 hsort.2
  refine ⟨_, hres, ?_⟩
  intro c hc
  rw [List.mem_append, List.mem_map, List.mem_map] at hc
  rcases hc with ⟨s, hs, rfl⟩ | ⟨s, hs, rfl⟩
  · have hall : ∀ a ∈ s, hasColon a = false :=
      fun a ha => hxs a ((batches_mem b hb1 _ xs s hs).2.2 a ha)
    refine ⟨?_, fun _ => hall, fun h => Tool.noConfusion h⟩
    rintro ⟨⟨a, ha, hcol⟩, _⟩
    rw [hall a ha] at hcol
    cases hcol
  · have hall : ∀ a ∈ s, hasColon a = true :=
      fun a ha => hys a ((batches_mem b hb1 _ ys s hs).2.2 a ha)
    refine ⟨?_, fun h => Tool.noConfusion h, fun _ => hall⟩
    rintro ⟨_, ⟨a, ha, hcol⟩⟩
    rw [hall a ha] at hcol
    cases hcol

theorem control_addresses_family_partition_witness :
    ∃ cmds, _control_addresses insertionSortBy 'A'
        ["::1".toList, "1.2.3.4".toList, "fe80::2".toList, "5.6.7.8".toList] 1 = some cmds ∧
      ∀ c ∈ cmds,
        ¬ ((∃ a ∈ c.srcs, hasColon a = true) ∧ (∃ a ∈ c.srcs, hasColon a = false)) ∧
        (c.tool = Tool.IPTABLES → ∀ a ∈ c.srcs, hasColon a = false) ∧
        (c.tool = Tool.IP6TABLES → ∀ a ∈ c.srcs, hasColon a = true) :=
  control_addresses_family_partition insertionSortBy 'A'
    ["::1".toList, "1.2.3.4".toList, "fe80::2".toList, "5.6.7.8".toList] 1
    (by decide) (by decide) ⟨by decide, by decide⟩

theorem map_srcs_flatten (tool : Tool) (cmdFlag : Char) (L : List (List CStr)) :
    ((L.map (fun srcs => Cmd.mk tool cmdFlag srcs)).map Cmd.srcs) = L := by
  rw [List.map_map]
  exact List.map_id'' (fun _ => rfl) L

/-- The commands of `_control_addresses` partition the vector into batches. -/
theorem control_addresses_batches
    (PTRVEC_sort : (CStr → CStr → Int) → List CStr → List CStr)
    (cmdFlag : Char) (h_vec : List CStr) (b : Nat) (hb1 : 1 ≤ b) (hb2 : b ≤ 100)
    (hsort : SortsBy addrCmp_pvsort h_vec (PTRVEC_sort addrCmp_pvsort h_vec)) :
    ∃ cmds, _control_addresses PTRVEC_sort cmdFlag h_vec b = some cmds ∧
      (cmds.map Cmd.srcs).flatten.Perm h_vec ∧
      ∀ c ∈ cmds, c.cmdFlag = cmdFlag ∧ 1 ≤ c.srcs.length ∧ c.srcs.length ≤ b := by
  obtain ⟨xs, ys, hsplit, _, _, hres⟩ :=
    control_addresses_spec PTRVEC_sort cmdFlag h_vec b hb1 hb2 hsort.2
  refine ⟨_, hres, ?_, ?_⟩
  · rw [List.map_append, map_srcs_flatten, map_srcs_flatten, List.flatten_append,
      batches_flatten b hb1 _ xs (le_refl _), batches_flatten b hb1 _ ys (le_refl _), ← hsplit]
    exact hsort.1
  · intro c hc
    rw [List.mem_append, List.mem_map, List.mem_map] at hc
    rcases hc with ⟨s, hs, rfl⟩ | ⟨s, hs, rfl⟩
    · exact ⟨rfl, (batches_mem b hb1 _ xs s hs).1, (batches_mem b hb1 _ xs s hs).2.1⟩
    · exact ⟨rfl, (batches_mem b hb1 _ ys s hs).1, (batches_mem b hb1 _ ys s hs).2.1⟩

/-- C4: for every vector of addresses and every batch size `b` between 1 and
100 (`PTRVEC_sort` ordering the vector by `addrCmp_pvsort`), block and unblock
return, the source lists of the commands they emit, concatenated, are a
permutation of the input vector (every address is in exactly one command, none is
dropped or repeated), and every command carries at least 1 and at most `b`
addresses. -/
theorem block_unblock_batches
    (PTRVEC_sort : (CStr → CStr → Int) → List CStr → List CStr)
    (h_vec : List CStr) (b : Nat) (hb1 : 1 ≤ b) (hb2 : b ≤ 100)
    (hsort : SortsBy addrCmp_pvsort h_vec (PTRVEC_sort addrCmp_pvsort h_vec)) :
    (∃ cmds, IPTABLES_block_addresses PTRVEC_sort h_vec b = some cmds ∧
      (cmds.map Cmd.srcs).flatten.Perm h_vec ∧
      ∀ c ∈ cmds, c.cmdFlag = 'A' ∧ 1 ≤ c.srcs.length ∧ c.srcs.length ≤ b) ∧
    (∃ cmds, IPTABLES_unblock_addresses PTRVEC_sort h_vec b = some cmds ∧
      (cmds.map Cmd.srcs).flatten.Perm h_vec ∧
      ∀ c ∈ cmds, c.cmdFlag = 'D' ∧ 1 ≤ c.srcs.length ∧ c.srcs.length ≤ b) :=
  ⟨control_addresses_batches PTRVEC_sort 'A' h_vec b hb1 hb2 hsort,
   control_addresses_batches PTRVEC_sort 'D' h_vec b hb1 hb2 hsort⟩

theorem block_unblock_batches_witness :
    ∃ cmds, IPTABLES_block_addresses insertionSortBy
        ["::1".toList, "1.2.3.4".toList, "fe80::2".toList, "5.6.7.8".toList, "9.9.9.9".toList]
        2 = some cmds ∧
      (cmds.map Cmd.srcs).flatten.Perm
        ["::1".toList, "1.2.3.4".toList, "fe80::2".toList, "5.6.7.8".toList, "9.9.9.9".toList] ∧
      ∀ c ∈ cmds, c.cmdFlag = 'A' ∧ 1 ≤ c.srcs.length ∧ c.srcs.length ≤ 2 :=
  (block_unblock_batches insertionSortBy
    ["::1".toList, "1.2.3.4".toList, "fe80::2".toList, "5.6.7.8".toList, "9.9.9.9".toList] 2
    (by decide) (by decide) ⟨by decide, by decide⟩).1

theorem countP_split (xs ys : List CStr) (p q : CStr → Bool)
    (hxs : ∀ x ∈ xs, p x = true ∧ q x = false) (hys : ∀ y ∈ ys, p y = false ∧ q y = true) :
    (xs ++ ys).countP p = xs.length ∧ (xs ++ ys).countP q = ys.length := by
  rw [List.countP_append, List.countP_append]
  have h1 : xs.countP p = xs.length := List.countP_eq_length.mpr (fun x hx => (hxs x hx).1)
  have h2 : ys.countP p = 0 := List.countP_eq_zero.mpr (fun y hy => by simp [(hys y hy).1])
  have h3 : xs.countP q = 0 := List.countP_eq_zero.mpr (fun x hx => by simp [(hxs x hx).2])
  have h4 : ys.countP q = ys.length := List.countP_eq_length.mpr (fun y hy => (hys y hy).2)
  omega

/-- C5: for every vector holding `n4` colon-free (IPv4) and `n6` other (IPv6)
addresses and every batch size `b` between 1 and 100 (`PTRVEC_sort` ordering the
vector by `addrCmp_pvsort`), `_control_addresses` emits exactly `ceil(n4/b)`
IPv4-tool commands followed by exactly `ceil(n6/b)` IPv6-tool commands, and every
command except the last of its family carries exactly `b` addresses. -/
theorem control_addresses_counts
    (PTRVEC_sort : (CStr → CStr → Int) → List CStr → List CStr)
    (cmdFlag : Char) (h_vec : List CStr) (b : Nat) (hb1 : 1 ≤ b) (hb2 : b ≤ 100)
    (hsort : SortsBy addrCmp_pvsort h_vec (PTRVEC_sort addrCmp_pvsort h_vec)) :
    ∃ cmds4 cmds6, _control_addresses PTRVEC_sort cmdFlag h_vec b = some (cmds4 ++ cmds6) ∧
      (∀ c ∈ cmds4, c.tool = Tool.IPTABLES) ∧ (∀ c ∈ cmds6, c.tool = Tool.IP6TABLES) ∧
      cmds4.length = (h_vec.countP (fun a => !hasColon a) + b - 1) / b ∧
      cmds6.length = (h_vec.countP (fun a => hasColon a) + b - 1) / b ∧
      (∀ c ∈ cmds4.dropLast, c.srcs.length = b) ∧
      (∀ c ∈ cmds6.dropLast, c.srcs.length = b) := by
  obtain ⟨xs, ys, hsplit, hxs, hys, hres⟩ :=
    control_addresses_spec PTRVEC_sort cmdFlag h_vec b hb1 hb2 hsort.2
  have hcnt := countP_split xs ys (fun a => !hasColon a) (fun a => hasColon a)
    (fun x hx => by simp [hxs x hx]) (fun y hy => by simp [hys y hy])
  rw [← hsplit, hsort.1.countP_eq, hsort.1.countP_eq] at hcnt
  refine ⟨_, _, hres, ?_, ?_, ?_, ?_, ?_, ?_⟩
  · intro c hc
    obtain ⟨s, _, rfl⟩ := List.mem_map.mp hc
    rfl
  · intro c hc
    obtain ⟨s, _, rfl⟩ := List.mem_map.mp hc
    rfl
  · rw [List.length_map, batches_length b hb1 _ xs (le_refl _), hcnt.1]
  · rw [List.length_map, batches_length b hb1 _ ys (le_refl _), hcnt.2]
  · intro c hc
    rw [← List.map_dropLast] at hc
    obtain ⟨s, hs, rfl⟩ := List.mem_map.mp hc
    exact batches_dropLast b _ xs s hs
  · intro c hc
    rw [← List.map_dropLast] at hc
    obtain ⟨s, hs, rfl⟩ := List.mem_map.mp hc
    exact batches_dropLast b _ ys s hs

theorem control_addresses_counts_witness :
    ∃ cmds4 cmds6, _control_addresses insertionSortBy 'A' s6Vec 10 = some (cmds4 ++ cmds6) ∧
      (∀ c ∈ cmds4, c.tool = Tool.IPTABLES) ∧ (∀ c ∈ cmds6, c.tool = Tool.IP6TABLES) ∧
      cmds4.length = 3 ∧ cmds6.length = 1 ∧
      (∀ c ∈ cmds4.dropLast, c.srcs.length = 10) ∧
      (∀ c ∈ cmds6.dropLast, c.srcs.length = 10) := by
  have h := control_addresses_counts insertionSortBy 'A' s6Vec 10 (by decide) (by decide)
    ⟨by decide, by decide⟩
  have h4 : (s6Vec.countP (fun a => !hasColon a) + 10 - 1) / 10 = 3 := by decide
  have h6 : (s6Vec.countP (fun a => hasColon a) + 10 - 1) / 10 = 1 := by decide
  rw [h4, h6] at h
  exact h

/-- Scenario S6 evaluated: 21 IPv4 and 4 IPv6 addresses with batch size 10 give
IPv4 batches of 10, 10 and 1 addresses and then one IPv6 batch of 4. -/
theorem control_addresses_s6 :
    (_control_addresses insertionSortBy 'A' s6Vec 10).map
        (fun cmds => cmds.map (fun c => (c.tool, c.srcs.length))) =
      some [(Tool.IPTABLES, 10), (Tool.IPTABLES, 10), (Tool.IPTABLES, 1),
        (Tool.IP6TABLES, 4)] := by
  decide

/-! ## Theorems: cache names -/

theorem cacheNameDirLoop_eq (dir sb : CStr) :
    cacheNameDirLoop dir sb = sb ++ dir.map (fun c => if c = '/' then ':' else c) := by
  induction dir generalizing sb with
  | nil => simp [cacheNameDirLoop]
  | cons c pc ih =>
    by_cases hc : c = '/'
    · simp [cacheNameDirLoop, hc, ih, STR_putc]
    · simp [cacheNameDirLoop, hc, ih, STR_putc]

/-- The cache name when the pattern hash is not empty. -/
theorem cacheName_of_md5sum {R : Type} (self : LOGTYPE R)
    (hmd5 : self.patterns_md5sum ≠ []) :
    LOGTYPE_cacheName self =
      some (self.dir.map (fun c => if c = '/' then ':' else c) ++ [';'] ++ self.pfix ++
        [';'] ++ self.patterns_md5sum) := by
  have hlen : self.patterns_md5sum.length ≠ 0 := fun h => hmd5 (List.length_eq_zero.mp h)
  unfold LOGTYPE_cacheName
  rw [if_pos hlen]
  simp only [cacheNameDirLoop_eq, STR_putc, STR_append, List.nil_append]

/-- C6: for a LogType with directory `dir`, prefix `pfix` and pattern-set hash
`md5` (not empty), `LOGTYPE_cacheName` returns `dir` with every `/` replaced by `:`
and every other character unchanged, then `;`, then `pfix` unchanged, then `;`,
then `md5`. -/
theorem LOGTYPE_cacheName_eq {R : Type} (self : LOGTYPE R)
    (hmd5 : self.patterns_md5sum ≠ []) :
    LOGTYPE_cacheName self =
      some (self.dir.map (fun c => if c = '/' then ':' else c) ++ [';'] ++ self.pfix ++
        [';'] ++ self.patterns_md5sum) := by
  have hlen : self.patterns_md5sum.length ≠ 0 := fun h => hmd5 (List.length_eq_zero.mp h)
  unfold LOGTYPE_cacheName
  rw [if_pos hlen]
  simp only [cacheNameDirLoop_eq, STR_putc, STR_append, List.nil_append]

theorem LOGTYPE_cacheName_eq_witness :
    LOGTYPE_cacheName (R := Unit)
        ⟨"/var/log".toList, "auth".toList, "71f9514f13bb7acfe4ea2fb0ca2158b7".toList, []⟩ =
      some ":var:log;auth;71f9514f13bb7acfe4ea2fb0ca2158b7".toList :=
  (LOGTYPE_cacheName_eq (R := Unit)
    ⟨"/var/log".toList, "auth".toList, "71f9514f13bb7acfe4ea2fb0ca2158b7".toList, []⟩
    (by decide)).trans (by decide)

theorem foldl_MD5_Update (targetArr : List CStr) (md5ctx : CStr) :
    targetArr.foldl (fun md5ctx pattern => MD5_Update md5ctx pattern) md5ctx =
      md5ctx ++ targetArr.flatten := by
  induction targetArr generalizing md5ctx with
  | nil => simp
  | cons t rest ih =>
    rw [List.foldl_cons, ih, List.flatten_cons, MD5_Update, List.append_assoc]

theorem patternsMd5sum_eq (md5hex : CStr → CStr) (targetArr : List CStr) :
    patternsMd5sum md5hex targetArr = md5hex targetArr.flatten := by
  unfold patternsMd5sum
  rw [foldl_MD5_Update, List.nil_append]

/-- C7, as stated, fails: the pattern lists `["ab", "c"]` and `["a", "bc"]`
differ, yet the constructor feeds MD5 the same bytes `abc` for both, so with any
hash function, injective or not, the two cache directory names are equal. -/
theorem cacheName_patterns_counterexample :
    ¬ (∀ (md5hex : CStr → CStr), Function.Injective md5hex →
        ∀ (p1 p2 : LogProtoType), p1.dir = p2.dir → p1.pfix = p2.pfix →
          p1.targetArr ≠ p2.targetArr →
          protoCacheName md5hex p1 ≠ protoCacheName md5hex p2) := by
  intro h
  refine h (fun s => 'h' :: s) (fun a b hab => List.tail_eq_of_cons_eq hab)
    ⟨"/var/log".toList, "auth".toList, ["ab".toList, "c".toList]⟩
    ⟨"/var/log".toList, "auth".toList, ["a".toList, "bc".toList]⟩ rfl rfl (by decide) ?_
  decide

/-- C7, amended: for two LogTypes with the same `dir` and the same prefix whose
pattern lists differ in their concatenation (the bytes fed to MD5), the cache
directory names the constructor computes differ, MD5 being taken as an injective
function with a non-empty hex string. -/
theorem cacheName_patterns_differ (md5hex : CStr → CStr)
    (hinj : Function.Injective md5hex) (hne : ∀ x, md5hex x ≠ [])
    (p1 p2 : LogProtoType) (hdir : p1.dir = p2.dir) (hpfix : p1.pfix = p2.pfix)
    (hpat : p1.targetArr.flatten ≠ p2.targetArr.flatten) :
    ∃ n1 n2, protoCacheName md5hex p1 = some n1 ∧ protoCacheName md5hex p2 = some n2 ∧
      n1 ≠ n2 := by
  unfold protoCacheName
  rw [cacheName_of_md5sum _ (by simpa [protoSelf, patternsMd5sum_eq] using hne _),
    cacheName_of_md5sum _ (by simpa [protoSelf, patternsMd5sum_eq] using hne _)]
  refine ⟨_, _, rfl, rfl, ?_⟩
  simp only [protoSelf, patternsMd5sum_eq, hdir, hpfix]
  intro h
  exact hpat (hinj (List.append_cancel_left h))

theorem cacheName_patterns_differ_witness :
    ∃ n1 n2,
      protoCacheName (fun s => 'h' :: s)
        ⟨"/var/log".toList, "auth".toList, ["ab".toList, "c".toList]⟩ = some n1 ∧
      protoCacheName (fun s => 'h' :: s)
        ⟨"/var/log".toList, "auth".toList, ["ab".toList, "d".toList]⟩ = some n2 ∧
      n1 ≠ n2 :=
  cacheName_patterns_differ (fun s => 'h' :: s)
    (fun a b hab => List.tail_eq_of_cons_eq hab) (fun x => List.cons_ne_nil _ _)
    ⟨"/var/log".toList, "auth".toList, ["ab".toList, "c".toList]⟩
    ⟨"/var/log".toList, "auth".toList, ["ab".toList, "d".toList]⟩ rfl rfl (by decide)

/-! ## Theorems: the directory scan -/

theorem strcmp_eq_zero_iff (s1 s2 : CStr) : strcmp s1 s2 = 0 ↔ s1 = s2 := by
  induction s1 generalizing s2 with
  | nil => cases s2 <;> simp [strcmp]
  | cons a s1 ih =>
    cases s2 with
    | nil => simp [strcmp]
    | cons b s2 =>
      unfold strcmp
      by_cases hab : a < b
      · simp [hab, ne_of_lt hab]
      · by_cases hba : b < a
        · simp [hab, hba, (ne_of_lt hba).symm]
        · have : a = b := le_antisymm (not_lt.mp hba) (not_lt.mp hab)
          simp [hab, hba, this, ih]

theorem strncmp_eq_zero_iff (s1 s2 : CStr) (n : Nat) :
    strncmp s1 s2 n = 0 ↔ s1.take n = s2.take n := by
  induction n generalizing s1 s2 with
  | zero => simp [strncmp]
  | succ n ih =>
    cases s1 with
    | nil => cases s2 <;> simp [strncmp]
    | cons a s1 =>
      cases s2 with
      | nil => simp [strncmp]
      | cons b s2 =>
        unfold strncmp
        by_cases hab : a < b
        · simp [hab, ne_of_lt hab]
        · by_cases hba : b < a
          · simp [hab, hba, (ne_of_lt hba).symm]
          · have : a = b := le_antisymm (not_lt.mp hba) (not_lt.mp hab)
            simp [hab, hba, this, ih]

theorem strncmp_pfix_iff (pfix d_name : CStr) :
    strncmp pfix d_name pfix.length = 0 ↔ pfix <+: d_name := by
  rw [strncmp_eq_zero_iff, List.take_length, List.prefix_iff_eq_take]

/-- C8: for every prefix (the empty one and one beginning with a dot
included) and every directory entry name, the constructor scans the entry iff the
name is neither `.` nor `..` and the prefix is a leading substring of the name; a
name ending in `.gz` is scanned iff it starts with the prefix, and a name shorter
than the prefix is never scanned. -/
theorem skipEntry_iff (pfix d_name : CStr) :
    (skipEntry pfix d_name = false ↔
      d_name ≠ ".".toList ∧ d_name ≠ "..".toList ∧ pfix <+: d_name) ∧
    (∀ base : CStr, d_name = base ++ ".gz".toList →
      (skipEntry pfix d_name = false ↔ pfix <+: d_name)) ∧
    (d_name.length < pfix.length → skipEntry pfix d_name = true) := by
  have hmain : skipEntry pfix d_name = false ↔
      d_name ≠ ".".toList ∧ d_name ≠ "..".toList ∧ pfix <+: d_name := by
    unfold skipEntry
    simp only [decide_eq_false_iff_not, not_or, strcmp_eq_zero_iff, strncmp_pfix_iff,
      not_not, ne_eq]
    constructor
    · rintro ⟨h1, h2, h3⟩
      exact ⟨fun h => h1 h.symm, fun h => h2 h.symm, h3⟩
    · rintro ⟨h1, h2, h3⟩
      exact ⟨fun h => h1 h.symm, fun h => h2 h.symm, h3⟩
  refine ⟨hmain, ?_, ?_⟩
  · intro base hbase
    rw [hmain]
    have hlen : 3 ≤ d_name.length := by
      rw [hbase, List.length_append]
      have : ".gz".toList.length = 3 := by decide
      omega
    constructor
    · exact fun h => h.2.2
    · intro h
      refine ⟨?_, ?_, h⟩
      · intro hd
        rw [hd] at hlen
        exact absurd hlen (by decide)
      · intro hd
        rw [hd] at hlen
        exact absurd hlen (by decide)
  · intro hlt
    cases hskip : skipEntry pfix d_name with
    | true => rfl
    | false =>
      have := (hmain.mp hskip).2.2.length_le
      omega

/-! ## Theorems: the content-addressed cache -/

theorem MAP_hasStrKey_iff {R : Type} (file_map : List (CStr × CStr × R)) (key : CStr) :
    MAP_hasStrKey file_map key = true ↔ key ∈ file_map.map Prod.fst := by
  unfold MAP_hasStrKey
  rw [List.any_eq_true, List.mem_map]
  constructor
  · rintro ⟨kv, hkv, h⟩
    exact ⟨kv, hkv, by simpa using h⟩
  · rintro ⟨kv, hkv, h⟩
    exact ⟨kv, hkv, by simpa using h⟩

theorem cacheFileAt_append_of_some {R : Type} (files : List (CStr × CacheFile R))
    (x : CStr × CacheFile R) (s : CStr) (file : CacheFile R)
    (h : cacheFileAt (some files) s = some file) :
    cacheFileAt (some (files ++ [x])) s = some file := by
  unfold cacheFileAt at h ⊢
  simp only [Option.map_eq_some'] at h ⊢
  obtain ⟨a, ha, hsnd⟩ := h
  exact ⟨a, by rw [List.find?_append, ha]; rfl, hsnd⟩

theorem cacheFileAt_append_of_none {R : Type} (files : List (CStr × CacheFile R))
    (s : CStr) (file : CacheFile R) (h : cacheFileAt (some files) s = none) :
    cacheFileAt (some (files ++ [(s, file)])) s = some file := by
  simp only [cacheFileAt, Option.map_eq_none'] at h ⊢
  rw [List.find?_append, h]
  simp

/-- One scanned entry: the hash is added to the file map, the records the
cache held stay, and the entry's hash names a loadable cache file afterwards. -/
theorem scanEntry_ok {R : Type} (md5hex : CStr → CStr)
    (LOGFILE_log_create : CStr → Option R) (dir : CStr) (st st1 : CtorState R)
    (entry : DirEnt)
    (h : scanEntry md5hex LOGFILE_log_create dir st entry = Except.ok st1) :
    st1.file_map.map Prod.fst = st.file_map.map Prod.fst ++ [md5hex entry.bytes] ∧
    (∀ s r, cacheFileAt st.cache s = some (CacheFile.record r) →
      cacheFileAt st1.cache s = some (CacheFile.record r)) ∧
    ∃ r, cacheFileAt st1.cache (md5hex entry.bytes) = some (CacheFile.record r) := by
  unfold scanEntry at h
  cases hc : cacheFileAt st.cache (md5hex entry.bytes) with
  | some file =>
    cases file with
    | invalid =>
      simp only [hc, LOGFILE_cache_create] at h
      cases h
    | record r =>
      simp only [hc, LOGFILE_cache_create, Except.ok.injEq] at h
      subst h
      exact ⟨by simp, fun s r hs => hs, r, hc⟩
  | none =>
    cases hl : LOGFILE_log_create entry.bytes with
    | none =>
      simp only [hc, hl] at h
      cases h
    | some f =>
      simp only [hc, hl, Except.ok.injEq] at h
      subst h
      refine ⟨by simp, ?_, f, ?_⟩
      · intro s r hs
        cases hcache : st.cache with
        | none => rw [hcache] at hs; simp [cacheFileAt] at hs
        | some files =>
          rw [hcache] at hs
          exact cacheFileAt_append_of_some files _ s _ hs
      · cases hcache : st.cache with
        | none => simp [cacheFileAt]
        | some files =>
          rw [hcache] at hc
          exact cacheFileAt_append_of_none files _ _ hc

theorem scannedEntries_cons_skip (pfix : CStr) (entry : DirEnt) (rest : List DirEnt)
    (h : skipEntry pfix entry.d_name = true) :
    scannedEntries pfix (entry :: rest) = scannedEntries pfix rest := by
  simp [scannedEntries, List.filter_cons, h]

theorem scannedEntries_cons_scan (pfix : CStr) (entry : DirEnt) (rest : List DirEnt)
    (h : ¬ skipEntry pfix entry.d_name = true) :
    scannedEntries pfix (entry :: rest) = entry :: scannedEntries pfix rest := by
  simp [scannedEntries, List.filter_cons, h]

/-- A completed scan: the file map gains the hashes of the scanned entries, in
order; the records the cache held stay; every scanned entry's hash names a
loadable cache file. -/
theorem scanLoop_ok {R : Type} (md5hex : CStr → CStr)
    (LOGFILE_log_create : CStr → Option R) (dir pfix : CStr) (entries : List DirEnt)
    (st st1 : CtorState R)
    (h : scanLoop md5hex LOGFILE_log_create dir pfix entries st = Except.ok st1) :
    st1.file_map.map Prod.fst =
      st.file_map.map Prod.fst ++ (scannedEntries pfix entries).map (fun e => md5hex e.bytes) ∧
    (∀ s r, cacheFileAt st.cache s = some (CacheFile.record r) →
      cacheFileAt st1.cache s = some (CacheFile.record r)) ∧
    ∀ e ∈ scannedEntries pfix entries,
      ∃ r, cacheFileAt st1.cache (md5hex e.bytes) = some (CacheFile.record r) := by
  induction entries generalizing st with
  | nil =>
    simp only [scanLoop, Except.ok.injEq] at h
    subst h
    exact ⟨by simp [scannedEntries], fun s r hs => hs, by simp [scannedEntries]⟩
  | cons entry rest ih =>
    by_cases hskip : skipEntry pfix entry.d_name = true
    · simp only [scanLoop, hskip, if_true] at h
      rw [scannedEntries_cons_skip pfix entry rest hskip]
      exact ih st h
    · simp only [scanLoop, hskip, if_false] at h
      rw [scannedEntries_cons_scan pfix entry rest hskip]
      cases hse : scanEntry md5hex LOGFILE_log_create dir st entry with
      | error err =>
        rw [hse] at h
        cases h
      | ok st' =>
        rw [hse] at h
        obtain ⟨hk, hkeep, hnew⟩ := scanEntry_ok md5hex LOGFILE_log_create dir st st' entry hse
        obtain ⟨hk', hkeep', hall'⟩ := ih st' h
        refine ⟨?_, fun s r hs => hkeep' s r (hkeep s r hs), ?_⟩
        · rw [hk', hk, List.map_cons, List.append_assoc, List.singleton_append]
        · intro e he
          rcases List.mem_cons.mp he with rfl | he
          · obtain ⟨r, hr⟩ := hnew
            exact ⟨r, hkeep' _ r hr⟩
          · exact hall' e he

/-- A scan in which every scanned entry's hash names a loadable cache file:
every entry is loaded from the cache and the cache is left as it was. -/
theorem scanLoop_cached {R : Type} (md5hex : CStr → CStr)
    (LOGFILE_log_create : CStr → Option R) (dir pfix : CStr) (entries : List DirEnt)
    (st : CtorState R)
    (hall : ∀ e ∈ scannedEntries pfix entries,
      ∃ r, cacheFileAt st.cache (md5hex e.bytes) = some (CacheFile.record r)) :
    ∃ fm, fm.map Prod.fst = (scannedEntries pfix entries).map (fun e => md5hex e.bytes) ∧
      scanLoop md5hex LOGFILE_log_create dir pfix entries st =
        Except.ok
          { cache := st.cache
            file_map := st.file_map ++ fm
            events := st.events ++ (scannedEntries pfix entries).map
              (fun e => CtorEvent.loadedFromCache (dir ++ ['/'] ++ e.d_name) (md5hex e.bytes)) } := by
  induction entries generalizing st with
  | nil => exact ⟨[], by simp [scannedEntries], by simp [scanLoop, scannedEntries]⟩
  | cons entry rest ih =>
    by_cases hskip : skipEntry pfix entry.d_name = true
    · rw [scannedEntries_cons_skip pfix entry rest hskip] at hall ⊢
      obtain ⟨fm, hfm, hrun⟩ := ih st hall
      exact ⟨fm, hfm, by simp only [scanLoop, hskip, if_true]; exact hrun⟩
    · rw [scannedEntries_cons_scan pfix entry rest hskip] at hall ⊢
      obtain ⟨r, hr⟩ := hall entry (List.mem_cons_self _ _)
      have hse : scanEntry md5hex LOGFILE_log_create dir st entry =
          Except.ok
            { cache := st.cache
              file_map := st.file_map ++ [(md5hex entry.bytes, dir ++ ['/'] ++ entry.d_name, r)]
              events := st.events ++
                [CtorEvent.loadedFromCache (dir ++ ['/'] ++ entry.d_name) (md5hex entry.bytes)] } := by
        simp only [scanEntry, hr, LOGFILE_cache_create]
      obtain ⟨fm, hfm, hrun⟩ := ih
        { cache := st.cache
          file_map := st.file_map ++ [(md5hex entry.bytes, dir ++ ['/'] ++ entry.d_name, r)]
          events := st.events ++
            [CtorEvent.loadedFromCache (dir ++ ['/'] ++ entry.d_name) (md5hex entry.bytes)] }
        (fun e he => hall e (List.mem_cons_of_mem _ he))
      refine ⟨(md5hex entry.bytes, dir ++ ['/'] ++ entry.d_name, r) :: fm, ?_, ?_⟩
      · rw [List.map_cons, List.map_cons, hfm]
      · rw [scanLoop, if_neg hskip, hse]
        dsimp only
        rw [hrun]
        simp only [List.append_assoc, List.singleton_append, List.map_cons]

theorem sweepLoop_fst {R : Type} (file_map : List (CStr × CStr × R)) (names : List CStr)
    (acc : List (CStr × CacheFile R) × List CtorEvent) :
    (sweepLoop file_map names acc).1 =
      acc.1.filter (fun f => decide (f.1 ∈ names →
        (f.1 = ".".toList ∨ f.1 = "..".toList ∨ MAP_hasStrKey file_map f.1 = true))) := by
  induction names generalizing acc with
  | nil => simp [sweepLoop]
  | cons n rest ih =>
    unfold sweepLoop
    by_cases hdot : strcmp ".".toList n = 0 ∨ strcmp "..".toList n = 0
    · rw [if_pos hdot, ih]
      have hdot' : n = ".".toList ∨ n = "..".toList := by
        rcases hdot with h | h
        · exact Or.inl ((strcmp_eq_zero_iff _ _).mp h).symm
        · exact Or.inr ((strcmp_eq_zero_iff _ _).mp h).symm
      apply List.filter_congr
      intro f _
      rw [decide_eq_decide]
      constructor
      · intro h hmem
        rcases List.mem_cons.mp hmem with hfn | hmem
        · rcases hdot' with hd | hd
          · exact Or.inl (hfn.trans hd)
          · exact Or.inr (Or.inl (hfn.trans hd))
        · exact h hmem
      · exact fun h hmem => h (List.mem_cons_of_mem _ hmem)
    · rw [if_neg hdot]
      by_cases hkey : MAP_hasStrKey file_map n = true
      · rw [if_pos hkey, ih]
        apply List.filter_congr
        intro f _
        rw [decide_eq_decide]
        constructor
        · intro h hmem
          rcases List.mem_cons.mp hmem with hfn | hmem
          · exact Or.inr (Or.inr (hfn ▸ hkey))
          · exact h hmem
        · exact fun h hmem => h (List.mem_cons_of_mem _ hmem)
      · rw [if_neg hkey, ih, List.filter_filter]
        have hdot' : ¬ (n = ".".toList ∨ n = "..".toList) := by
          rintro (h | h)
          · exact hdot (Or.inl ((strcmp_eq_zero_iff _ _).mpr h.symm))
          · exact hdot (Or.inr ((strcmp_eq_zero_iff _ _).mpr h.symm))
        apply List.filter_congr
        intro f _
        rw [Bool.eq_iff_iff]
        simp only [Bool.and_eq_true, decide_eq_true_eq]
        constructor
        · rintro ⟨h, hne⟩ hmem
          rcases List.mem_cons.mp hmem with hfn | hmem
          · exact absurd hfn hne
          · exact h hmem
        · intro h
          refine ⟨fun hmem => h (List.mem_cons_of_mem _ hmem), ?_⟩
          intro hfn
          rcases h (hfn ▸ List.mem_cons_self _ _) with h1 | h1 | h1
          · exact hdot' (Or.inl (hfn ▸ h1))
          · exact hdot' (Or.inr (hfn ▸ h1))
          · exact hkey (hfn ▸ h1)

theorem sweepLoop_id {R : Type} (file_map : List (CStr × CStr × R)) (names : List CStr)
    (acc : List (CStr × CacheFile R) × List CtorEvent)
    (h : ∀ n ∈ names, n = ".".toList ∨ n = "..".toList ∨ MAP_hasStrKey file_map n = true) :
    sweepLoop file_map names acc = acc := by
  induction names generalizing acc with
  | nil => rfl
  | cons n rest ih =>
    unfold sweepLoop
    have ih' := ih acc (fun m hm => h m (List.mem_cons_of_mem _ hm))
    rcases h n (List.mem_cons_self _ _) with h1 | h1 | h1
    · rw [if_pos (Or.inl ((strcmp_eq_zero_iff _ _).mpr h1.symm)), ih']
    · rw [if_pos (Or.inr ((strcmp_eq_zero_iff _ _).mpr h1.symm)), ih']
    · by_cases hdot : strcmp ".".toList n = 0 ∨ strcmp "..".toList n = 0
      · rw [if_pos hdot, ih']
      · rw [if_neg hdot, if_pos h1, ih']

theorem cacheFileAt_filter {R : Type} (files : List (CStr × CacheFile R))
    (q : CStr × CacheFile R → Bool) (s : CStr)
    (h : ∀ f ∈ files, f.1 = s → q f = true) :
    cacheFileAt (some (files.filter q)) s = cacheFileAt (some files) s := by
  simp only [cacheFileAt]
  congr 1
  induction files with
  | nil => rfl
  | cons f rest ih =>
    have ih' := ih (fun g hg => h g (List.mem_cons_of_mem _ hg))
    by_cases hfs : f.1 = s
    · have hq := h f (List.mem_cons_self _ _) hfs
      simp [List.filter_cons, hq, List.find?_cons, hfs]
    · by_cases hq : q f = true
      · simp [List.filter_cons, hq, List.find?_cons, hfs, ih']
      · simp [List.filter_cons, hq, List.find?_cons, hfs, ih']

/-- C9: when a LogType construction has completed on a set of log files and an
initial cache state, a second construction on the same log files and the cache
the first one left completes too, parses no log file (every scanned file is
loaded from its cache file, nothing is written or unlinked) and leaves the cache
subdirectory in the state the first construction left it in. -/
theorem constructor_idempotent {R : Type} (md5hex : CStr → CStr)
    (LOGFILE_log_create : CStr → Option R) (proto : LogProtoType)
    (entries : List DirEnt) (cache : CacheSub R) (r1 : CtorResult R)
    (h1 : LOGTYPE_proto_constructor md5hex LOGFILE_log_create proto (some entries) cache =
      Except.ok r1) :
    ∃ r2, LOGTYPE_proto_constructor md5hex LOGFILE_log_create proto (some entries) r1.cache =
        Except.ok r2 ∧
      r2.cache = r1.cache ∧
      r2.events = (scannedEntries proto.pfix entries).map
        (fun e => CtorEvent.loadedFromCache (proto.dir ++ ['/'] ++ e.d_name) (md5hex e.bytes)) ∧
      (∀ logFname, CtorEvent.parsedLog logFname ∉ r2.events) := by
  unfold LOGTYPE_proto_constructor at h1 ⊢
  cases hname : LOGTYPE_cacheName (protoSelf (R := R) md5hex proto) with
  | none => simp only [hname] at h1; cases h1
  | some cacheDname =>
    simp only [hname] at h1 ⊢
    cases hscan : scanLoop md5hex LOGFILE_log_create (protoSelf (R := R) md5hex proto).dir
        (protoSelf (R := R) md5hex proto).pfix entries
        { cache := cache, file_map := [], events := [] } with
    | error err => simp only [hscan] at h1; cases h1
    | ok st1 =>
      simp only [hscan] at h1
      cases hc : st1.cache with
      | none => simp only [hc] at h1; cases h1
      | some files1 =>
        simp only [hc, Except.ok.injEq] at h1
        subst h1
        obtain ⟨hk, _, hall⟩ := scanLoop_ok md5hex LOGFILE_log_create _ _ entries _ st1 hscan
        simp only [List.map_nil, List.nil_append] at hk
        rw [hc] at hall
        have hkey1 : ∀ e ∈ scannedEntries (protoSelf (R := R) md5hex proto).pfix entries,
            MAP_hasStrKey st1.file_map (md5hex e.bytes) = true := by
          intro e he
          rw [MAP_hasStrKey_iff, hk]
          exact List.mem_map_of_mem _ he
        have hall2 : ∀ e ∈ scannedEntries (protoSelf (R := R) md5hex proto).pfix entries,
            ∃ r, cacheFileAt
              (some (sweepLoop st1.file_map (readdirNames files1) (files1, st1.events)).1)
              (md5hex e.bytes) = some (CacheFile.record r) := by
          intro e he
          obtain ⟨r, hr⟩ := hall e he
          refine ⟨r, ?_⟩
          rw [sweepLoop_fst, cacheFileAt_filter _ _ _ ?_]
          · exact hr
          · intro f _ hf
            rw [decide_eq_true_eq]
            intro _
            exact Or.inr (Or.inr (hf ▸ hkey1 e he))
        obtain ⟨fm2, hfm2, hrun2⟩ := scanLoop_cached md5hex LOGFILE_log_create
          (protoSelf (R := R) md5hex proto).dir (protoSelf (R := R) md5hex proto).pfix entries
          { cache := some (sweepLoop st1.file_map (readdirNames files1) (files1, st1.events)).1
            file_map := [], events := [] } hall2
        simp only [hrun2, List.nil_append]
        have hsweep2 : ∀ acc, sweepLoop fm2
            (readdirNames (sweepLoop st1.file_map (readdirNames files1) (files1, st1.events)).1)
            acc = acc := by
          intro acc
          apply sweepLoop_id
          intro n hn
          simp only [readdirNames, List.mem_cons] at hn
          rcases hn with h | h | h
          · exact Or.inl h
          · exact Or.inr (Or.inl h)
          · obtain ⟨f, hf, rfl⟩ := List.mem_map.mp h
            rw [sweepLoop_fst, List.mem_filter, decide_eq_true_eq] at hf
            have hmem : f.1 ∈ readdirNames files1 := by
              simp only [readdirNames, List.mem_cons]
              exact Or.inr (Or.inr (List.mem_map_of_mem _ hf.1))
            rcases hf.2 hmem with h | h | h
            · exact Or.inl h
            · exact Or.inr (Or.inl h)
            · refine Or.inr (Or.inr ?_)
              rw [MAP_hasStrKey_iff, hfm2, ← hk, ← MAP_hasStrKey_iff]
              exact h
        rw [hsweep2]
        refine ⟨_, rfl, rfl, rfl, ?_⟩
        intro logFname hmem
        obtain ⟨e, _, he⟩ := List.mem_map.mp hmem
        cases he

theorem constructor_idempotent_witness :
    ∃ r1 r2 : CtorResult Nat,
      LOGTYPE_proto_constructor (fun x => 'h' :: x) (fun x => some x.length)
        ⟨"/var/log".toList, "auth".toList, ["Failed".toList]⟩
        (some [⟨".".toList, []⟩, ⟨"..".toList, []⟩, ⟨"auth.log".toList, "abc".toList⟩,
          ⟨"auth.log.1".toList, "abcd".toList⟩, ⟨"syslog".toList, "xy".toList⟩])
        (some [("stale".toList, CacheFile.invalid)]) = Except.ok r1 ∧
      LOGTYPE_proto_constructor (fun x => 'h' :: x) (fun x => some x.length)
        ⟨"/var/log".toList, "auth".toList, ["Failed".toList]⟩
        (some [⟨".".toList, []⟩, ⟨"..".toList, []⟩, ⟨"auth.log".toList, "abc".toList⟩,
          ⟨"auth.log.1".toList, "abcd".toList⟩, ⟨"syslog".toList, "xy".toList⟩])
        r1.cache = Except.ok r2 ∧
      r2.cache = r1.cache ∧ (∀ logFname, CtorEvent.parsedLog logFname ∉ r2.events) := by
  have hok : (LOGTYPE_proto_constructor (R := Nat) (fun x => 'h' :: x) (fun x => some x.length)
        ⟨"/var/log".toList, "auth".toList, ["Failed".toList]⟩
        (some [⟨".".toList, []⟩, ⟨"..".toList, []⟩, ⟨"auth.log".toList, "abc".toList⟩,
          ⟨"auth.log.1".toList, "abcd".toList⟩, ⟨"syslog".toList, "xy".toList⟩])
        (some [("stale".toList, CacheFile.invalid)])).toOption.isSome = true := by
    decide
  cases h : LOGTYPE_proto_constructor (R := Nat) (fun x => 'h' :: x) (fun x => some x.length)
        ⟨"/var/log".toList, "auth".toList, ["Failed".toList]⟩
        (some [⟨".".toList, []⟩, ⟨"..".toList, []⟩, ⟨"auth.log".toList, "abc".toList⟩,
          ⟨"auth.log.1".toList, "abcd".toList⟩, ⟨"syslog".toList, "xy".toList⟩])
        (some [("stale".toList, CacheFile.invalid)]) with
  | error err =>
    rw [h] at hok
    cases hok
  | ok r1 =>
    obtain ⟨r2, h2, hcache, _, hparse⟩ := constructor_idempotent _ _ _ _ _ r1 h
    exact ⟨r1, r2, rfl, h2, hcache, hparse⟩

/-- C10, the failing input evaluated: when no entry of the log directory is
scanned (all are dot entries or do not start with the prefix) and the cache
subdirectory does not exist, no `ez_mkdir` is reached and the constructor opens a
cache subdirectory that does not exist: the construction does not complete. -/
theorem constructor_opendir_fails {R : Type} (md5hex : CStr → CStr)
    (LOGFILE_log_create : CStr → Option R) (proto : LogProtoType)
    (entries : List DirEnt)
    (hmd5 : patternsMd5sum md5hex proto.targetArr ≠ [])
    (hskip : ∀ e ∈ entries, skipEntry proto.pfix e.d_name = true) :
    LOGTYPE_proto_constructor md5hex LOGFILE_log_create proto (some entries) none =
      Except.error CtorError.opendirCacheDir := by
  have hloop : ∀ (l : List DirEnt) (st : CtorState R),
      (∀ e ∈ l, skipEntry proto.pfix e.d_name = true) →
      scanLoop md5hex LOGFILE_log_create proto.dir proto.pfix l st = Except.ok st := by
    intro l
    induction l with
    | nil => intro st _; rfl
    | cons e rest ih =>
      intro st h
      rw [scanLoop, if_pos (h e (List.mem_cons_self _ _))]
      exact ih st (fun x hx => h x (List.mem_cons_of_mem _ hx))
  have hname := cacheName_of_md5sum (protoSelf (R := R) md5hex proto) hmd5
  have hrun := hloop entries { cache := none, file_map := [], events := [] } hskip
  simp only [LOGTYPE_proto_constructor, hname]
  simp only [protoSelf, hrun]

theorem constructor_opendir_fails_witness :
    LOGTYPE_proto_constructor (R := Nat) (fun x => 'h' :: x) (fun x => some x.length)
        ⟨"/var/log".toList, "auth".toList, ["Failed".toList]⟩
        (some [⟨".".toList, []⟩, ⟨"..".toList, []⟩, ⟨"syslog".toList, "xy".toList⟩]) none =
      Except.error CtorError.opendirCacheDir :=
  constructor_opendir_fails _ _ _ _ (by decide) (by decide)

/-! ## Theorems: injectivity of the cache name -/

theorem append_cons_split (x : Char) (a b c d : CStr) (ha : x ∉ a) (hc : x ∉ c)
    (h : a ++ x :: b = c ++ x :: d) : a = c ∧ b = d := by
  induction a generalizing c with
  | nil =>
    cases c with
    | nil => exact ⟨rfl, by simpa using h⟩
    | cons y c =>
      simp only [List.nil_append, List.cons_append, List.cons.injEq] at h
      exact absurd (h.1 ▸ List.mem_cons_self _ _) hc
  | cons y a ih =>
    cases c with
    | nil =>
      simp only [List.nil_append, List.cons_append, List.cons.injEq] at h
      exact absurd (h.1 ▸ List.mem_cons_self _ _) ha
    | cons z c =>
      simp only [List.cons_append, List.cons.injEq] at h
      obtain ⟨h1, h2⟩ := ih c (fun hm => ha (List.mem_cons_of_mem _ hm))
        (fun hm => hc (List.mem_cons_of_mem _ hm)) h.2
      exact ⟨by rw [h.1, h1], h2⟩

theorem encodeDir_injective (d1 d2 : CStr) (h1 : ':' ∉ d1) (h2 : ':' ∉ d2)
    (h : d1.map (fun c => if c = '/' then ':' else c) =
      d2.map (fun c => if c = '/' then ':' else c)) : d1 = d2 := by
  induction d1 generalizing d2 with
  | nil =>
    cases d2 with
    | nil => rfl
    | cons y d2 => simp at h
  | cons x d1 ih =>
    cases d2 with
    | nil => simp at h
    | cons y d2 =>
      simp only [List.map_cons, List.cons.injEq] at h
      have hx : x ≠ ':' := fun e => h1 (e ▸ List.mem_cons_self _ _)
      have hy : y ≠ ':' := fun e => h2 (e ▸ List.mem_cons_self _ _)
      have hxy : x = y := by
        have h' := h.1
        by_cases hx' : x = '/'
        · by_cases hy' : y = '/'
          · rw [hx', hy']
          · rw [if_pos hx', if_neg hy'] at h'
            exact absurd h'.symm hy
        · by_cases hy' : y = '/'
          · rw [if_neg hx', if_pos hy'] at h'
            exact absurd h' hx
          · rw [if_neg hx', if_neg hy'] at h'
            exact h'
      rw [hxy, ih d2 (fun hm => h1 (List.mem_cons_of_mem _ hm))
        (fun hm => h2 (List.mem_cons_of_mem _ hm)) h.2]

theorem encodeDir_no_semicolon (d : CStr) (h : ';' ∉ d) :
    ';' ∉ d.map (fun c => if c = '/' then ':' else c) := by
  intro hm
  obtain ⟨c, hc, hcs⟩ := List.mem_map.mp hm
  by_cases hc' : c = '/'
  · rw [if_pos hc'] at hcs
    exact absurd hcs (by decide)
  · rw [if_neg hc'] at hcs
    exact h (hcs ▸ hc)

theorem cacheName_md5sum_ne_nil {R : Type} (self : LOGTYPE R) (n : CStr)
    (h : LOGTYPE_cacheName self = some n) : self.patterns_md5sum ≠ [] := by
  intro hm
  simp [LOGTYPE_cacheName, hm] at h

/-- C18: `LOGTYPE_cacheName` is injective on well-formed inputs: when neither
`dir` holds `:` or `;` and neither hash holds `;`, two LogTypes for which the
function returns the same name have the same `dir`, the same `pfix` and the same
pattern hash. -/
theorem LOGTYPE_cacheName_injective {R : Type} (s1 s2 : LOGTYPE R) (n : CStr)
    (hd1 : ':' ∉ s1.dir ∧ ';' ∉ s1.dir) (hd2 : ':' ∉ s2.dir ∧ ';' ∉ s2.dir)
    (hm1 : ';' ∉ s1.patterns_md5sum) (hm2 : ';' ∉ s2.patterns_md5sum)
    (h1 : LOGTYPE_cacheName s1 = some n) (h2 : LOGTYPE_cacheName s2 = some n) :
    s1.dir = s2.dir ∧ s1.pfix = s2.pfix ∧ s1.patterns_md5sum = s2.patterns_md5sum := by
  rw [cacheName_of_md5sum s1 (cacheName_md5sum_ne_nil s1 n h1), Option.some.injEq] at h1
  rw [cacheName_of_md5sum s2 (cacheName_md5sum_ne_nil s2 n h2), Option.some.injEq] at h2
  have h := h1.trans h2.symm
  simp only [List.append_assoc, List.singleton_append] at h
  obtain ⟨hdir, hrest⟩ := append_cons_split ';' _ _ _ _
    (encodeDir_no_semicolon s1.dir hd1.2) (encodeDir_no_semicolon s2.dir hd2.2) h
  have hrest' : s1.pfix ++ ';' :: s1.patterns_md5sum =
      s2.pfix ++ ';' :: s2.patterns_md5sum := hrest
  have hrev := congrArg List.reverse hrest'
  simp only [List.reverse_append, List.reverse_cons, List.append_assoc,
    List.singleton_append] at hrev
  obtain ⟨hmd5, hpfix⟩ := append_cons_split ';' _ _ _ _
    (fun hm => hm1 (List.mem_reverse.mp hm)) (fun hm => hm2 (List.mem_reverse.mp hm)) hrev
  exact ⟨encodeDir_injective _ _ hd1.1 hd2.1 hdir, List.reverse_injective hpfix,
    List.reverse_injective hmd5⟩

theorem LOGTYPE_cacheName_injective_witness :
    LOGTYPE_cacheName (R := Unit)
        ⟨"/var/log".toList, "auth".toList, "71f9514f13bb7acfe4ea2fb0ca2158b7".toList, []⟩ =
      some ":var:log;auth;71f9514f13bb7acfe4ea2fb0ca2158b7".toList ∧
    (LOGTYPE.dir (R := Unit)
        ⟨"/var/log".toList, "auth".toList, "71f9514f13bb7acfe4ea2fb0ca2158b7".toList, []⟩ =
      LOGTYPE.dir (R := Unit)
        ⟨"/var/log".toList, "auth".toList, "71f9514f13bb7acfe4ea2fb0ca2158b7".toList,
          [([], [], ())]⟩) :=
  ⟨by decide,
    (LOGTYPE_cacheName_injective (R := Unit)
      ⟨"/var/log".toList, "auth".toList, "71f9514f13bb7acfe4ea2fb0ca2158b7".toList, []⟩
      ⟨"/var/log".toList, "auth".toList, "71f9514f13bb7acfe4ea2fb0ca2158b7".toList,
        [([], [], ())]⟩
      ":var:log;auth;71f9514f13bb7acfe4ea2fb0ca2158b7".toList
      (by decide) (by decide) (by decide) (by decide) (by decide) (by decide)).1⟩

/-! ## Theorems: the sweep of the cache directory -/

theorem sweepCacheDir_fst {R : Type} (logType_map : List CStr) (names : List CStr)
    (acc : CacheDir R × List MainEvent) :
    (sweepCacheDir logType_map names acc).1 =
      acc.1.filter (fun d => decide (d.1 ∈ names →
        (d.1.head? = some '.' ∨ d.1 ∈ logType_map))) := by
  induction names generalizing acc with
  | nil => simp [sweepCacheDir]
  | cons n rest ih =>
    unfold sweepCacheDir
    by_cases hdot : n.head? = some '.'
    · rw [if_pos hdot, ih]
      apply List.filter_congr
      intro d _
      rw [decide_eq_decide]
      constructor
      · intro h hmem
        rcases List.mem_cons.mp hmem with hdn | hmem
        · exact Or.inl (hdn ▸ hdot)
        · exact h hmem
      · exact fun h hmem => h (List.mem_cons_of_mem _ hmem)
    · rw [if_neg hdot]
      by_cases hkey : n ∈ logType_map
      · rw [if_pos (decide_eq_true hkey), ih]
        apply List.filter_congr
        intro d _
        rw [decide_eq_decide]
        constructor
        · intro h hmem
          rcases List.mem_cons.mp hmem with hdn | hmem
          · exact Or.inr (hdn ▸ hkey)
          · exact h hmem
        · exact fun h hmem => h (List.mem_cons_of_mem _ hmem)
      · rw [if_neg (by simpa using hkey), ih, List.filter_filter]
        apply List.filter_congr
        intro d _
        rw [Bool.eq_iff_iff]
        simp only [Bool.and_eq_true, decide_eq_true_eq]
        constructor
        · rintro ⟨h, hne⟩ hmem
          rcases List.mem_cons.mp hmem with hdn | hmem
          · exact absurd hdn hne
          · exact h hmem
        · intro h
          refine ⟨fun hmem => h (List.mem_cons_of_mem _ hmem), ?_⟩
          intro hdn
          rcases h (hdn ▸ List.mem_cons_self _ _) with h1 | h1
          · exact hdot (hdn ▸ h1)
          · exact hkey (hdn ▸ h1)

/-- C12, as stated, fails: an entry `.stale` of the cache directory that is no
configured LogType's cache name is still there after the sweep. -/
theorem mainSweep_counterexample :
    ¬ (".stale".toList ∈ ((mainSweep (R := Unit) [] [(".stale".toList, [])]).1.map Prod.fst) ↔
        (".stale".toList ∈ [".stale".toList] ∧ ".stale".toList ∈ ([] : List CStr))) := by
  decide

/-- C12, amended: after the driver's startup sweep an entry of the cache
directory is left iff its name begins with a dot or is the cache name of a
configured LogType (a key of `G.logType_map`); every other entry has been removed. -/
theorem mainSweep_names {R : Type} (logType_map : List CStr) (root : CacheDir R)
    (name : CStr) :
    name ∈ (mainSweep logType_map root).1.map Prod.fst ↔
      name ∈ root.map Prod.fst ∧ (name.head? = some '.' ∨ name ∈ logType_map) := by
  unfold mainSweep
  rw [sweepCacheDir_fst]
  simp only [List.mem_map, List.mem_filter, decide_eq_true_eq]
  constructor
  · rintro ⟨d, ⟨hd, hkeep⟩, rfl⟩
    refine ⟨⟨d, hd, rfl⟩, hkeep ?_⟩
    simp only [readdirCacheDir, List.mem_cons]
    exact Or.inr (Or.inr (List.mem_map_of_mem _ hd))
  · rintro ⟨⟨d, hd, rfl⟩, hkeep⟩
    exact ⟨d, ⟨hd, fun _ => hkeep⟩, rfl⟩

/-! ## Theorems: the live blocklist -/

/-- C13, the failing input evaluated: the third line of the IPv4 list output
is a DROP rule whose destination is `10.0.0.0/8`, not the wildcard, and its
source `1.2.3.4` is put on the live blocklist all the same. -/
theorem iptablesInit_foreign_destination :
    (iptablesInit
      ["Chain INPUT (policy ACCEPT)\n".toList,
        "target     prot opt source               destination\n".toList,
        "DROP       all  --  1.2.3.4              10.0.0.0/8\n".toList]
      ["Chain INPUT (policy ACCEPT)\n".toList,
        "target     prot opt source               destination\n".toList]).1.addr_map =
      ["1.2.3.4".toList] := by
  decide

/-! ## Theorems: the lock and the firewall tool in a run -/

/-- C16, the failing input evaluated: with a stale subdirectory `old` in the
cache directory, the run releases the lock and only then removes `old` with its
contents: a cache-modifying event follows the lock-release event. -/
theorem mainRun_rmdir_after_release :
    (mainRun (R := Nat) (fun x => 'h' :: x) (fun x => some x.length) insertionSortBy
        [] [] (fun _ => 2) false
        (some [("old".toList, [("0123".toList, CacheFile.record 7)])])
        [(⟨"/var/log".toList, "auth".toList, ["Failed".toList]⟩,
          some [⟨"auth.log".toList, "abc".toList⟩])]
        []).map
      (fun r => (r.events.dropWhile (fun ev => decide (ev ≠ MainEvent.lockReleased))).filter
        MainEvent.modifiesCache) =
      some [MainEvent.rmdirRecursive "old".toList] := by
  decide

theorem ensureInit_spec (out4 out6 : List CStr) (S : IptablesS) :
    (ensureInit out4 out6 S).1.is_init = true ∧
    (ensureInit out4 out6 S).2 =
      if S.is_init then []
      else [MainEvent.popenList Tool.IPTABLES, MainEvent.popenList Tool.IP6TABLES] := by
  unfold ensureInit
  cases h : S.is_init <;> simp [iptablesInit, h]

/-- The loop over the aggregate runs the two list commands at its first
iteration, when the adapter is not set up yet, and no other command. -/
theorem driverLoop_events (out4 out6 : List CStr) (allowed : CStr → Int)
    (leArr : List LOGENTRY) (st : Vecs × IptablesS × List MainEvent) :
    (driverLoop out4 out6 allowed leArr st).2.2 =
      st.2.2 ++ (if leArr = [] ∨ st.2.1.is_init = true then []
        else [MainEvent.popenList Tool.IPTABLES, MainEvent.popenList Tool.IP6TABLES]) ∧
    ((driverLoop out4 out6 allowed leArr st).2.1.is_init = true ↔
      (leArr ≠ [] ∨ st.2.1.is_init = true)) := by
  induction leArr generalizing st with
  | nil => simp [driverLoop]
  | cons e rest ih =>
    obtain ⟨hinit, hev⟩ := ensureInit_spec out4 out6 st.2.1
    simp only [driverLoop, isCurrentlyBlockedRun]
    obtain ⟨h1, h2⟩ := ih
      ((processEntry (ensureInit out4 out6 st.2.1).1.addr_map allowed st.1 e).2,
        (ensureInit out4 out6 st.2.1).1, st.2.2 ++ (ensureInit out4 out6 st.2.1).2)
    constructor
    · rw [h1]
      simp only [hinit, or_true, if_true, List.append_nil, hev]
      cases hs : st.2.1.is_init <;> simp
    · rw [h2]
      simp [hinit]

/-- In test mode the reconciliation part runs the two list commands when the
aggregate is not empty, and nothing else. -/
theorem mainFirewall_test_mode (PTRVEC_sort : (CStr → CStr → Int) → List CStr → List CStr)
    (out4 out6 : List CStr) (allowed : CStr → Int) (leArr : List LOGENTRY) :
    mainFirewall PTRVEC_sort out4 out6 allowed true leArr =
      some (if leArr = [] then []
        else [MainEvent.popenList Tool.IPTABLES, MainEvent.popenList Tool.IP6TABLES]) := by
  unfold mainFirewall
  simp only [Bool.not_true, Bool.false_eq_true, if_false]
  rw [(driverLoop_events out4 out6 allowed leArr _).1]
  simp

theorem LOGTYPE_init_events {R : Type} (md5hex : CStr → CStr)
    (LOGFILE_log_create : CStr → Option R) (st st1 : MainState R)
    (cfg : LogProtoType × Option (List DirEnt))
    (h : LOGTYPE_init md5hex LOGFILE_log_create st cfg = Except.ok st1) :
    ∃ evs, st1.events = st.events ++ evs ∧ ∀ ev ∈ evs, ev.invokesFirewall = false := by
  unfold LOGTYPE_init at h
  cases hn : protoCacheName md5hex cfg.1 with
  | none => simp only [hn] at h; cases h
  | some name =>
    simp only [hn] at h
    cases hc : LOGTYPE_proto_constructor md5hex LOGFILE_log_create cfg.1 cfg.2
        (cacheSubAt st.root name) with
    | error e => simp only [hc] at h; cases h
    | ok r =>
      simp only [hc, Except.ok.injEq] at h
      subst h
      refine ⟨_, rfl, ?_⟩
      intro ev hev
      obtain ⟨c, _, rfl⟩ := List.mem_map.mp hev
      rfl

theorem configure_events {R : Type} (md5hex : CStr → CStr)
    (LOGFILE_log_create : CStr → Option R)
    (cfgs : List (LogProtoType × Option (List DirEnt))) (st st1 : MainState R)
    (h : configure md5hex LOGFILE_log_create cfgs st = Except.ok st1) :
    ∃ evs, st1.events = st.events ++ evs ∧ ∀ ev ∈ evs, ev.invokesFirewall = false := by
  induction cfgs generalizing st with
  | nil =>
    simp only [configure, Except.ok.injEq] at h
    subst h
    exact ⟨[], by simp, by simp⟩
  | cons cfg rest ih =>
    unfold configure at h
    cases hi : LOGTYPE_init md5hex LOGFILE_log_create st cfg with
    | error e => simp only [hi] at h; cases h
    | ok st' =>
      simp only [hi] at h
      obtain ⟨evs1, he1, hf1⟩ := LOGTYPE_init_events md5hex LOGFILE_log_create st st' cfg hi
      obtain ⟨evs2, he2, hf2⟩ := ih st' h
      refine ⟨evs1 ++ evs2, by rw [he2, he1, List.append_assoc], ?_⟩
      intro ev hev
      rcases List.mem_append.mp hev with hm | hm
      · exact hf1 ev hm
      · exact hf2 ev hm

theorem sweepCacheDir_events {R : Type} (logType_map : List CStr) (names : List CStr)
    (acc : CacheDir R × List MainEvent)
    (hacc : ∀ ev ∈ acc.2, ev.invokesFirewall = false) :
    ∀ ev ∈ (sweepCacheDir logType_map names acc).2, ev.invokesFirewall = false := by
  induction names generalizing acc with
  | nil => exact hacc
  | cons n rest ih =>
    unfold sweepCacheDir
    by_cases hdot : n.head? = some '.'
    · rw [if_pos hdot]
      exact ih acc hacc
    · rw [if_neg hdot]
      by_cases hkey : decide (n ∈ logType_map) = true
      · rw [if_pos hkey]
        exact ih acc hacc
      · rw [if_neg hkey]
        apply ih
        intro ev hev
        rcases List.mem_append.mp hev with hm | hm
        · exact hacc ev hm
        · rw [List.mem_singleton.mp hm]
          rfl

/-- C14, as stated, fails: in test mode, with one address in the aggregate,
the run executes the list command of both tools. -/
theorem mainRun_test_mode_counterexample :
    (mainRun (R := Nat) (fun x => 'h' :: x) (fun x => some x.length) insertionSortBy
        [] [] (fun _ => 2) true (some [])
        [(⟨"/var/log".toList, "auth".toList, ["Failed".toList]⟩,
          some [⟨"auth.log".toList, "abc".toList⟩])]
        [⟨"1.2.3.4".toList, 3⟩]).map
      (fun r => r.events.filter MainEvent.invokesFirewall) =
      some [MainEvent.popenList Tool.IPTABLES, MainEvent.popenList Tool.IP6TABLES] := by
  decide

/-- C14, amended: in test mode (`-t`), for every configuration and every set
of logs, a completed run executes no append (`-A`) and no delete (`-D`) command of
either tool; the only invocations of the firewall tool are the two list commands
(`-nL INPUT`, one per family), executed when the aggregate is not empty. -/
theorem mainRun_test_mode {R : Type} (md5hex : CStr → CStr)
    (LOGFILE_log_create : CStr → Option R)
    (PTRVEC_sort : (CStr → CStr → Int) → List CStr → List CStr)
    (out4 out6 : List CStr) (allowed : CStr → Int)
    (cacheDir : Option (CacheDir R)) (cfgs : List (LogProtoType × Option (List DirEnt)))
    (leArr : List LOGENTRY) (r : MainResult R)
    (h : mainRun md5hex LOGFILE_log_create PTRVEC_sort out4 out6 allowed true cacheDir cfgs
      leArr = some r) :
    (∀ cmd, MainEvent.popenCmd cmd ∉ r.events) ∧
    r.events.filter MainEvent.invokesFirewall =
      if leArr = [] then []
      else [MainEvent.popenList Tool.IPTABLES, MainEvent.popenList Tool.IP6TABLES] := by
  unfold mainRun at h
  rw [mainFirewall_test_mode] at h
  have hst0 : ∀ ev ∈ (match cacheDir with
      | none => ({ root := [], logType_map := [],
                   events := [MainEvent.lockAcquired, MainEvent.mkdirCacheDir] } : MainState R)
      | some root => { root := root, logType_map := [],
                       events := [MainEvent.lockAcquired] }).events,
      ev.invokesFirewall = false := by
    cases cacheDir <;> simp [MainEvent.invokesFirewall]
  cases hc : configure md5hex LOGFILE_log_create cfgs (match cacheDir with
      | none => ({ root := [], logType_map := [],
                   events := [MainEvent.lockAcquired, MainEvent.mkdirCacheDir] } : MainState R)
      | some root => { root := root, logType_map := [],
                       events := [MainEvent.lockAcquired] }) with
  | error e => simp only [hc] at h; cases h
  | ok st1 =>
    simp only [hc, Option.some.injEq] at h
    subst h
    obtain ⟨evs, hev, hevs⟩ := configure_events md5hex LOGFILE_log_create cfgs _ st1 hc
    have hpre : ∀ ev ∈ st1.events ++ [MainEvent.lockReleased] ++
        (mainSweep st1.logType_map st1.root).2, ev.invokesFirewall = false := by
      intro ev hm
      rcases List.mem_append.mp hm with hm | hm
      · rcases List.mem_append.mp hm with hm | hm
        · rw [hev] at hm
          rcases List.mem_append.mp hm with hm | hm
          · exact hst0 ev hm
          · exact hevs ev hm
        · rw [List.mem_singleton.mp hm]
          rfl
      · exact sweepCacheDir_events st1.logType_map _ (st1.root, []) (by simp) ev hm
    constructor
    · intro cmd hm
      rcases List.mem_append.mp hm with hm | hm
      · have := hpre _ hm
        simp [MainEvent.invokesFirewall] at this
      · by_cases hl : leArr = []
        · simp [hl] at hm
        · simp [hl] at hm
    · rw [List.filter_append, List.filter_eq_nil_iff.mpr (fun ev hm => by simp [hpre ev hm]),
        List.nil_append]
      by_cases hl : leArr = []
      · simp [hl]
      · simp [hl, MainEvent.invokesFirewall]

theorem mainRun_test_mode_witness :
    ∃ r : MainResult Nat,
      mainRun (fun x => 'h' :: x) (fun x => some x.length) insertionSortBy
        [] [] (fun _ => 2) true (some [])
        [(⟨"/var/log".toList, "auth".toList, ["Failed".toList]⟩,
          some [⟨"auth.log".toList, "abc".toList⟩])]
        [⟨"1.2.3.4".toList, 3⟩] = some r ∧
      (∀ cmd, MainEvent.popenCmd cmd ∉ r.events) := by
  cases h : mainRun (R := Nat) (fun x => 'h' :: x) (fun x => some x.length) insertionSortBy
        [] [] (fun _ => 2) true (some [])
        [(⟨"/var/log".toList, "auth".toList, ["Failed".toList]⟩,
          some [⟨"auth.log".toList, "abc".toList⟩])]
        [⟨"1.2.3.4".toList, 3⟩] with
  | none =>
    have hsome : (mainRun (R := Nat) (fun x => 'h' :: x) (fun x => some x.length)
        insertionSortBy [] [] (fun _ => 2) true (some [])
        [(⟨"/var/log".toList, "auth".toList, ["Failed".toList]⟩,
          some [⟨"auth.log".toList, "abc".toList⟩])]
        [⟨"1.2.3.4".toList, 3⟩]).isSome = true := by decide
    rw [h] at hsome
    cases hsome
  | some r =>
    exact ⟨r, rfl, (mainRun_test_mode _ _ _ _ _ _ _ _ _ r h).1⟩

/-! ## Theorems: cache files that do not load, and the swept cache -/

/-- One scanned entry that completes leaves every cache file in place, and
every name of the cache subdirectory afterwards was there before or is the
entry's hash. -/
theorem scanEntry_files {R : Type} (md5hex : CStr → CStr)
    (LOGFILE_log_create : CStr → Option R) (dir : CStr) (st st1 : CtorState R)
    (entry : DirEnt)
    (h : scanEntry md5hex LOGFILE_log_create dir st entry = Except.ok st1) :
    (∀ s file, cacheFileAt st.cache s = some file → cacheFileAt st1.cache s = some file) ∧
    (∀ files1, st1.cache = some files1 → ∀ f ∈ files1,
      (∃ files, st.cache = some files ∧ f ∈ files) ∨ f.1 = md5hex entry.bytes) := by
  unfold scanEntry at h
  cases hc : cacheFileAt st.cache (md5hex entry.bytes) with
  | some file =>
    cases file with
    | invalid =>
      simp only [hc, LOGFILE_cache_create] at h
      cases h
    | record r =>
      simp only [hc, LOGFILE_cache_create, Except.ok.injEq] at h
      subst h
      exact ⟨fun s file hs => hs, fun files1 hf f hm => Or.inl ⟨files1, hf, hm⟩⟩
  | none =>
    cases hl : LOGFILE_log_create entry.bytes with
    | none =>
      simp only [hc, hl] at h
      cases h
    | some r =>
      simp only [hc, hl, Except.ok.injEq] at h
      subst h
      cases hcache : st.cache with
      | none =>
        refine ⟨fun s file hs => ?_, fun files1 hf f hm => ?_⟩
        · simp [cacheFileAt] at hs
        · simp only [Option.some.injEq] at hf
          subst hf
          simp only [List.nil_append, List.mem_singleton] at hm
          exact Or.inr (by rw [hm])
      | some files =>
        refine ⟨fun s file hs => ?_, fun files1 hf f hm => ?_⟩
        · exact cacheFileAt_append_of_some files _ s file hs
        · simp only [Option.some.injEq] at hf
          subst hf
          rcases List.mem_append.mp hm with hm | hm
          · exact Or.inl ⟨files, rfl, hm⟩
          · exact Or.inr (by rw [List.mem_singleton.mp hm])

/-- One scanned entry completes when its hash does not name an unloadable
cache file and the log file parses. -/
theorem scanEntry_returns {R : Type} (md5hex : CStr → CStr)
    (LOGFILE_log_create : CStr → Option R) (dir : CStr) (st : CtorState R) (entry : DirEnt)
    (hvalid : cacheFileAt st.cache (md5hex entry.bytes) ≠ some CacheFile.invalid)
    (hparse : (LOGFILE_log_create entry.bytes).isSome = true) :
    ∃ st1, scanEntry md5hex LOGFILE_log_create dir st entry = Except.ok st1 := by
  cases hc : cacheFileAt st.cache (md5hex entry.bytes) with
  | some file =>
    cases file with
    | invalid => exact absurd hc hvalid
    | record r =>
      simp only [scanEntry, hc, LOGFILE_cache_create]
      exact ⟨_, rfl⟩
  | none =>
    cases hl : LOGFILE_log_create entry.bytes with
    | none => rw [hl] at hparse; cases hparse
    | some r =>
      simp only [scanEntry, hc, hl]
      exact ⟨_, rfl⟩

/-- The scan completes when no scanned entry's hash names an unloadable cache
file and every scanned log file parses. -/
theorem scanLoop_returns {R : Type} (md5hex : CStr → CStr)
    (LOGFILE_log_create : CStr → Option R) (dir pfix : CStr) (entries : List DirEnt)
    (st : CtorState R)
    (hparse : ∀ e ∈ scannedEntries pfix entries, (LOGFILE_log_create e.bytes).isSome = true)
    (hvalid : ∀ e ∈ scannedEntries pfix entries,
      cacheFileAt st.cache (md5hex e.bytes) ≠ some CacheFile.invalid) :
    ∃ st1, scanLoop md5hex LOGFILE_log_create dir pfix entries st = Except.ok st1 := by
  induction entries generalizing st with
  | nil => exact ⟨st, rfl⟩
  | cons entry rest ih =>
    by_cases hskip : skipEntry pfix entry.d_name = true
    · rw [scannedEntries_cons_skip pfix entry rest hskip] at hparse hvalid
      rw [scanLoop, if_pos hskip]
      exact ih st hparse hvalid
    · rw [scannedEntries_cons_scan pfix entry rest hskip] at hparse hvalid
      rw [scanLoop, if_neg hskip]
      obtain ⟨st1, hst1⟩ := scanEntry_returns md5hex LOGFILE_log_create dir st entry
        (hvalid entry (List.mem_cons_self _ _)) (hparse entry (List.mem_cons_self _ _))
      rw [hst1]
      apply ih st1 (fun x hx => hparse x (List.mem_cons_of_mem _ hx))
      intro e he hinv
      obtain ⟨_, hkeep, _⟩ := scanEntry_ok md5hex LOGFILE_log_create dir st st1 entry hst1
      obtain ⟨_, hnames⟩ := scanEntry_files md5hex LOGFILE_log_create dir st st1 entry hst1
      cases hst1c : st1.cache with
      | none => rw [hst1c] at hinv; simp [cacheFileAt] at hinv
      | some files1 =>
        cases hold : cacheFileAt st.cache (md5hex e.bytes) with
        | some file =>
          have := (scanEntry_files md5hex LOGFILE_log_create dir st st1 entry hst1).1 _ _ hold
          rw [this] at hinv
          exact hvalid e (List.mem_cons_of_mem _ he) (by rw [hold]; exact hinv)
        | none =>
          rw [hst1c] at hinv
          simp only [cacheFileAt, Option.map_eq_some'] at hinv
          obtain ⟨f, hf, hfi⟩ := hinv
          have hfm := List.mem_of_find?_eq_some hf
          have hfn : f.1 = md5hex e.bytes := by simpa using List.find?_some hf
          rcases hnames files1 hst1c f hfm with ⟨files, hfs, hfin⟩ | hnew
          · rw [hfs] at hold
            simp only [cacheFileAt, Option.map_eq_none', List.find?_eq_none] at hold
            exact hold f hfin (by simpa using hfn)
          · obtain ⟨r, hr⟩ := (scanEntry_ok md5hex LOGFILE_log_create dir st st1 entry hst1).2.2
            rw [hst1c, ← hnew, hfn] at hr
            simp only [cacheFileAt, Option.map_eq_some'] at hr
            obtain ⟨g, hg, hgr⟩ := hr
            rw [hf, Option.some.injEq] at hg
            rw [← hg, hfi] at hgr
            cases hgr

/-- Every name of the cache subdirectory after a completed scan was there
before the scan or is the hash of a scanned entry. -/
theorem scanLoop_names {R : Type} (md5hex : CStr → CStr)
    (LOGFILE_log_create : CStr → Option R) (dir pfix : CStr) (entries : List DirEnt)
    (st st1 : CtorState R)
    (h : scanLoop md5hex LOGFILE_log_create dir pfix entries st = Except.ok st1) :
    ∀ files1, st1.cache = some files1 → ∀ f ∈ files1,
      (∃ files, st.cache = some files ∧ f ∈ files) ∨
      f.1 ∈ (scannedEntries pfix entries).map (fun e => md5hex e.bytes) := by
  induction entries generalizing st with
  | nil =>
    simp only [scanLoop, Except.ok.injEq] at h
    subst h
    exact fun files1 hf f hm => Or.inl ⟨files1, hf, hm⟩
  | cons entry rest ih =>
    by_cases hskip : skipEntry pfix entry.d_name = true
    · rw [scanLoop, if_pos hskip] at h
      rw [scannedEntries_cons_skip pfix entry rest hskip]
      exact ih st h
    · rw [scanLoop, if_neg hskip] at h
      rw [scannedEntries_cons_scan pfix entry rest hskip]
      cases hse : scanEntry md5hex LOGFILE_log_create dir st entry with
      | error err => rw [hse] at h; cases h
      | ok st' =>
        rw [hse] at h
        intro files1 hf f hm
        rcases ih st' h files1 hf f hm with ⟨files', hf', hm'⟩ | hhash
        · rcases (scanEntry_files md5hex LOGFILE_log_create dir st st' entry hse).2
            files' hf' f hm' with hold | hnew
          · exact Or.inl hold
          · exact Or.inr (by rw [List.map_cons, hnew]; exact List.mem_cons_self _ _)
        · exact Or.inr (by rw [List.map_cons]; exact List.mem_cons_of_mem _ hhash)

/-- C11: over the model of the cache subdirectory, for every initial content
(its files not named `.` or `..`, none of those named by the hash of a scanned log
file unloadable) and every non-empty set of scanned log files (each taken to
parse), the construction completes and the set of file names in the cache
subdirectory afterwards equals the set of content hashes of the scanned log files:
each hash is present and every other file has been deleted. -/
theorem constructor_cache_names {R : Type} (md5hex : CStr → CStr)
    (LOGFILE_log_create : CStr → Option R) (proto : LogProtoType)
    (entries : List DirEnt) (cache : CacheSub R)
    (hmd5 : patternsMd5sum md5hex proto.targetArr ≠ [])
    (hne : scannedEntries proto.pfix entries ≠ [])
    (hparse : ∀ e ∈ scannedEntries proto.pfix entries,
      (LOGFILE_log_create e.bytes).isSome = true)
    (hvalid : ∀ e ∈ scannedEntries proto.pfix entries,
      cacheFileAt cache (md5hex e.bytes) ≠ some CacheFile.invalid)
    (hdots : ∀ files, cache = some files →
      ∀ f ∈ files, f.1 ≠ ".".toList ∧ f.1 ≠ "..".toList) :
    ∃ r files,
      LOGTYPE_proto_constructor md5hex LOGFILE_log_create proto (some entries) cache =
        Except.ok r ∧
      r.cache = some files ∧
      ∀ name, name ∈ files.map Prod.fst ↔
        name ∈ (scannedEntries proto.pfix entries).map (fun e => md5hex e.bytes) := by
  have hname := cacheName_of_md5sum (protoSelf (R := R) md5hex proto) hmd5
  obtain ⟨st1, hscan⟩ := scanLoop_returns md5hex LOGFILE_log_create proto.dir proto.pfix
    entries { cache := cache, file_map := [], events := [] } hparse hvalid
  obtain ⟨hk, _, hall⟩ := scanLoop_ok md5hex LOGFILE_log_create _ _ entries _ st1 hscan
  have hnames := scanLoop_names md5hex LOGFILE_log_create _ _ entries _ st1 hscan
  simp only [List.map_nil, List.nil_append] at hk
  obtain ⟨e0, he0⟩ := List.exists_mem_of_ne_nil _ hne
  cases hc : st1.cache with
  | none =>
    obtain ⟨r0, hr0⟩ := hall e0 he0
    rw [hc] at hr0
    simp [cacheFileAt] at hr0
  | some files1 =>
    refine ⟨{ self := { (protoSelf (R := R) md5hex proto) with file_map := st1.file_map }
              cacheDname := proto.dir.map (fun c => if c = '/' then ':' else c) ++ [';'] ++
                proto.pfix ++ [';'] ++ patternsMd5sum md5hex proto.targetArr
              cache := some
                (sweepLoop st1.file_map (readdirNames files1) (files1, st1.events)).1
              events := (sweepLoop st1.file_map (readdirNames files1) (files1, st1.events)).2 },
      (sweepLoop st1.file_map (readdirNames files1) (files1, st1.events)).1, ?_, rfl, ?_⟩
    · simp only [LOGTYPE_proto_constructor, hname]
      simp only [protoSelf, hscan, hc]
    · intro name
      rw [sweepLoop_fst]
      simp only [List.mem_map, List.mem_filter, decide_eq_true_eq]
      constructor
      · rintro ⟨f, ⟨hf, hkeep⟩, rfl⟩
        have hmem : f.1 ∈ readdirNames files1 := by
          simp only [readdirNames, List.mem_cons]
          exact Or.inr (Or.inr (List.mem_map_of_mem _ hf))
        have hfrom := hnames files1 hc f hf
        have hhash : (∃ files, cache = some files ∧ f ∈ files) → False ∨
            (f.1 = ".".toList ∨ f.1 = "..".toList) → False := by
          rintro ⟨files, hfs, hfin⟩ (hcon | hdot)
          · exact hcon
          · rcases hdot with hd | hd
            · exact (hdots files hfs f hfin).1 hd
            · exact (hdots files hfs f hfin).2 hd
        rcases hkeep hmem with hd | hd | hkey
        · rcases hfrom with hold | hh
          · exact absurd (Or.inr (Or.inl hd)) (fun x => hhash hold x)
          · exact List.mem_map.mp hh
        · rcases hfrom with hold | hh
          · exact absurd (Or.inr (Or.inr hd)) (fun x => hhash hold x)
          · exact List.mem_map.mp hh
        · rw [MAP_hasStrKey_iff, hk] at hkey
          exact List.mem_map.mp hkey
      · rintro ⟨e, he, rfl⟩
        obtain ⟨r, hr⟩ := hall e he
        rw [hc] at hr
        simp only [cacheFileAt, Option.map_eq_some'] at hr
        obtain ⟨f, hf, _⟩ := hr
        have hfn : f.1 = md5hex e.bytes := by simpa using List.find?_some hf
        refine ⟨f, ⟨List.mem_of_find?_eq_some hf, fun _ => Or.inr (Or.inr ?_)⟩, hfn⟩
        rw [MAP_hasStrKey_iff, hk, hfn]
        exact List.mem_map_of_mem _ he

theorem constructor_cache_names_witness :
    ∃ (r : CtorResult Nat) (files : List (CStr × CacheFile Nat)),
      LOGTYPE_proto_constructor (fun x => 'h' :: x) (fun x => some x.length)
        ⟨"/var/log".toList, "auth".toList, ["Failed".toList]⟩
        (some [⟨".".toList, []⟩, ⟨"..".toList, []⟩, ⟨"auth.log".toList, "abc".toList⟩,
          ⟨"auth.log.1".toList, "abcd".toList⟩, ⟨"syslog".toList, "xy".toList⟩])
        (some [("habc".toList, CacheFile.record 3), ("hold".toList, CacheFile.record 4),
          ("junk".toList, CacheFile.invalid)]) = Except.ok r ∧
      r.cache = some files ∧
      ∀ name, name ∈ files.map Prod.fst ↔
        name ∈ (scannedEntries "auth".toList
          [⟨".".toList, []⟩, ⟨"..".toList, []⟩, ⟨"auth.log".toList, "abc".toList⟩,
            ⟨"auth.log.1".toList, "abcd".toList⟩, ⟨"syslog".toList, "xy".toList⟩]).map
          (fun e => 'h' :: e.bytes) :=
  constructor_cache_names (fun x => 'h' :: x) (fun x => some x.length)
    ⟨"/var/log".toList, "auth".toList, ["Failed".toList]⟩
    [⟨".".toList, []⟩, ⟨"..".toList, []⟩, ⟨"auth.log".toList, "abc".toList⟩,
      ⟨"auth.log.1".toList, "abcd".toList⟩, ⟨"syslog".toList, "xy".toList⟩]
    (some [("habc".toList, CacheFile.record 3), ("hold".toList, CacheFile.record 4),
      ("junk".toList, CacheFile.invalid)])
    (by decide) (by decide) (by decide) (by decide)
    (by
      intro files hf
      rw [Option.some.injEq] at hf
      subst hf
      decide)

/-! ## Theorems: the by-country rollup -/

theorem addCount_eq_map (key : CStr) (n : Nat) (m : List cntryStat)
    (hnodup : (m.map cntryStat.cntry).Nodup) :
    addCount key n m =
      m.map (fun cs => if cs.cntry = key then { cs with count := (cs.count + n) % 2 ^ 32 }
        else cs) := by
  induction m with
  | nil => rfl
  | cons cs rest ih =>
    rw [List.map_cons, List.nodup_cons] at hnodup
    by_cases hk : cs.cntry = key
    · have hrest : rest.map (fun cs => if cs.cntry = key then
          ({ cs with count := (cs.count + n) % 2 ^ 32 } : cntryStat) else cs) = rest := by
        conv_rhs => rw [← List.map_id rest]
        apply List.map_congr_left
        intro x hx
        have hxk : x.cntry ≠ key := by
          intro h
          apply hnodup.1
          rw [hk, ← h]
          exact List.mem_map_of_mem _ hx
        rw [if_neg hxk]
        rfl
      simp only [addCount, hk, if_true, List.map_cons, hrest]
    · simp only [addCount, hk, if_false, List.map_cons, ih hnodup.2]

theorem map_upd_cntry (key : CStr) (n : Nat) (m : List cntryStat) :
    (m.map (fun cs => if cs.cntry = key then
      ({ cs with count := (cs.count + n) % 2 ^ 32 } : cntryStat) else cs)).map cntryStat.cntry =
      m.map cntryStat.cntry := by
  rw [List.map_map]
  apply List.map_congr_left
  intro cs _
  by_cases h : cs.cntry = key <;> simp [h]

theorem cntryTotal_append (c : CStr) (pre : List CntryEntry) (e : CntryEntry) :
    cntryTotal c (pre ++ [e]) = cntryTotal c pre + (if e.cntry = c then e.count else 0) := by
  unfold cntryTotal
  by_cases h : e.cntry = c
  · simp [List.filter_append, List.filter_cons, h]
  · simp [List.filter_append, List.filter_cons, h]

theorem cntryTotal_eq_zero (c : CStr) (pre : List CntryEntry)
    (h : c ∉ pre.map CntryEntry.cntry) : cntryTotal c pre = 0 := by
  unfold cntryTotal
  have : pre.filter (fun e => decide (e.cntry = c)) = [] := by
    rw [List.filter_eq_nil_iff]
    intro e he hc
    exact h (List.mem_map.mpr ⟨e, he, by simpa using hc⟩)
  rw [this]
  rfl

/-- One call of `map_byCountries` keeps the map's invariant: one item per
country code seen so far, each holding the sum of the counts seen for its code
(modulo `2 ^ 32`). -/
theorem map_byCountries_inv (e : CntryEntry) (m : List cntryStat) (pre : List CntryEntry)
    (h1 : (m.map cntryStat.cntry).Nodup)
    (h2 : ∀ c, c ∈ m.map cntryStat.cntry ↔ c ∈ pre.map CntryEntry.cntry)
    (h3 : ∀ cs ∈ m, cs.count = cntryTotal cs.cntry pre % 2 ^ 32) :
    ((map_byCountries e m).map cntryStat.cntry).Nodup ∧
    (∀ c, c ∈ (map_byCountries e m).map cntryStat.cntry ↔
      c ∈ (pre ++ [e]).map CntryEntry.cntry) ∧
    (∀ cs ∈ map_byCountries e m, cs.count = cntryTotal cs.cntry (pre ++ [e]) % 2 ^ 32) := by
  have hupd : ∀ cs0 ∈ m, ∀ cs,
      cs = (if cs0.cntry = e.cntry then
        ({ cs0 with count := (cs0.count + e.count) % 2 ^ 32 } : cntryStat) else cs0) →
      cs.count = cntryTotal cs.cntry (pre ++ [e]) % 2 ^ 32 := by
    intro cs0 hcs0 cs hcs
    by_cases hk : cs0.cntry = e.cntry
    · rw [if_pos hk] at hcs
      subst hcs
      simp only
      rw [cntryTotal_append, if_pos hk.symm, h3 cs0 hcs0, Nat.mod_add_mod]
    · rw [if_neg hk] at hcs
      subst hcs
      rw [cntryTotal_append, if_neg (fun h => hk h.symm), Nat.add_zero]
      exact h3 cs hcs0
  unfold map_byCountries
  cases hfind : m.find? (fun cs => decide (cs.cntry = e.cntry)) with
  | some cs0 =>
    have hmem : e.cntry ∈ m.map cntryStat.cntry := by
      have hp := List.find?_some hfind
      exact List.mem_map.mpr ⟨cs0, List.mem_of_find?_eq_some hfind, by simpa using hp⟩
    simp only
    rw [addCount_eq_map _ _ m h1, map_upd_cntry]
    refine ⟨h1, ?_, ?_⟩
    · intro c
      rw [h2 c, List.map_append, List.mem_append, List.map_cons, List.map_nil,
        List.mem_singleton]
      constructor
      · exact fun h => Or.inl h
      · rintro (h | h)
        · exact h
        · rw [h]
          exact (h2 _).mp hmem
    · intro cs hcs
      obtain ⟨cs0, hcs0, rfl⟩ := List.mem_map.mp hcs
      exact hupd cs0 hcs0 _ rfl
  | none =>
    have hnot : e.cntry ∉ m.map cntryStat.cntry := by
      intro hm
      obtain ⟨cs, hcs, hc⟩ := List.mem_map.mp hm
      rw [List.find?_eq_none] at hfind
      exact hfind cs hcs (by simpa using hc)
    have hnd : ((m ++ [({ cntry := e.cntry, count := 0 } : cntryStat)]).map
        cntryStat.cntry).Nodup := by
      rw [List.map_append, List.map_cons, List.map_nil]
      exact List.Nodup.append h1 (List.nodup_singleton _)
        (by
          intro a ha hb
          rw [List.mem_singleton] at hb
          have hb' : a = e.cntry := hb
          exact hnot (hb' ▸ ha))
    simp only
    rw [addCount_eq_map _ _ _ hnd, map_upd_cntry]
    refine ⟨hnd, ?_, ?_⟩
    · intro c
      rw [List.map_append, List.mem_append, List.map_append, List.mem_append, h2 c]
      simp
    · intro cs hcs
      obtain ⟨cs0, hcs0, rfl⟩ := List.mem_map.mp hcs
      rcases List.mem_append.mp hcs0 with hold | hnew
      · exact hupd cs0 hold _ rfl
      · rw [List.mem_singleton] at hnew
        subst hnew
        simp only [if_true, Nat.zero_add]
        rw [cntryTotal_append, if_pos rfl,
          cntryTotal_eq_zero e.cntry pre (fun h => hnot ((h2 _).mpr h)), Nat.zero_add]

theorem foldl_map_byCountries_inv (es : List CntryEntry) (m : List cntryStat)
    (pre : List CntryEntry)
    (h1 : (m.map cntryStat.cntry).Nodup)
    (h2 : ∀ c, c ∈ m.map cntryStat.cntry ↔ c ∈ pre.map CntryEntry.cntry)
    (h3 : ∀ cs ∈ m, cs.count = cntryTotal cs.cntry pre % 2 ^ 32) :
    ((es.foldl (fun h_map e => map_byCountries e h_map) m).map cntryStat.cntry).Nodup ∧
    (∀ c, c ∈ (es.foldl (fun h_map e => map_byCountries e h_map) m).map cntryStat.cntry ↔
      c ∈ (pre ++ es).map CntryEntry.cntry) ∧
    (∀ cs ∈ es.foldl (fun h_map e => map_byCountries e h_map) m,
      cs.count = cntryTotal cs.cntry (pre ++ es) % 2 ^ 32) := by
  induction es generalizing m pre with
  | nil =>
    rw [List.foldl_nil, List.append_nil]
    exact ⟨h1, h2, h3⟩
  | cons e rest ih =>
    obtain ⟨g1, g2, g3⟩ := map_byCountries_inv e m pre h1 h2 h3
    have := ih (map_byCountries e m) (pre ++ [e]) g1 g2 g3
    rw [List.append_assoc, List.singleton_append] at this
    exact this

theorem cntryTotal_le_sum (c : CStr) (es : List CntryEntry) :
    cntryTotal c es ≤ (es.map CntryEntry.count).sum := by
  unfold cntryTotal
  induction es with
  | nil => simp
  | cons e rest ih =>
    by_cases h : e.cntry = c
    · simp only [List.filter_cons, h, decide_True, if_true, List.map_cons, List.sum_cons]
      omega
    · simp only [List.filter_cons, h, decide_False, Bool.false_eq_true, if_false,
        List.map_cons, List.sum_cons]
      omega

/-- C17: for every aggregate map, the by-country rollup has exactly one entry
per distinct country code occurring among the aggregate entries (the empty code
counting as one code), the count of each entry is the sum of the counts of the
aggregate entries carrying that code (the sum of all counts below `2 ^ 32`, so
that no `unsigned` addition wraps), and the entries are printed in non-increasing
order of count (`qsort` ordering the vector by `cntryStat_count_qsort`). -/
theorem byCountryRollup_spec
    (qsort : (cntryStat → cntryStat → Int) → List cntryStat → List cntryStat)
    (addr_map : List CntryEntry)
    (hsort : SortsStatsBy cntryStat_count_qsort (byCntryMap addr_map)
      (qsort cntryStat_count_qsort (byCntryMap addr_map)))
    (hsum : (addr_map.map CntryEntry.count).sum < 2 ^ 32) :
    ((byCountryRollup qsort addr_map).map cntryStat.cntry).Nodup ∧
    (∀ c, c ∈ (byCountryRollup qsort addr_map).map cntryStat.cntry ↔
      c ∈ addr_map.map CntryEntry.cntry) ∧
    (∀ cs ∈ byCountryRollup qsort addr_map, cs.count = cntryTotal cs.cntry addr_map) ∧
    (byCountryRollup qsort addr_map).Pairwise (fun a b => a.count ≥ b.count) ∧
    ((byCountryRollup qsort addr_map).map printCntryStat).Pairwise
      (fun a b => a.2 ≥ b.2) := by
  obtain ⟨g1, g2, g3⟩ := foldl_map_byCountries_inv addr_map [] []
    (by simp) (by simp) (by simp)
  rw [List.nil_append] at g2 g3
  obtain ⟨hperm, hpair⟩ := hsort
  have hsorted : (byCountryRollup qsort addr_map).Pairwise (fun a b => a.count ≥ b.count) := by
    refine List.Pairwise.imp ?_ hpair
    intro a b hab
    unfold cntryStat_count_qsort at hab
    by_cases h1 : a.count > b.count
    · exact le_of_lt h1
    · by_cases h2 : a.count < b.count
      · rw [if_neg h1, if_pos h2] at hab
        exact absurd hab (by decide)
      · exact not_lt.mp h2
  refine ⟨?_, ?_, ?_, hsorted, ?_⟩
  · exact (hperm.map cntryStat.cntry).nodup_iff.mpr g1
  · intro c
    rw [← g2 c]
    exact (hperm.map cntryStat.cntry).mem_iff
  · intro cs hcs
    have hm : cs ∈ byCntryMap addr_map := hperm.mem_iff.mp hcs
    rw [g3 cs hm]
    exact Nat.mod_eq_of_lt (lt_of_le_of_lt (cntryTotal_le_sum _ _) hsum)
  · rw [List.pairwise_map]
    exact hsorted

theorem byCountryRollup_spec_witness :
    (byCountryRollup insertionSortStat
        [⟨"US".toList, 3⟩, ⟨[], 2⟩, ⟨"CN".toList, 9⟩, ⟨"US".toList, 1⟩, ⟨[], 5⟩]).map
      printCntryStat =
      [("CN".toList, 9), ("--".toList, 7), ("US".toList, 4)] ∧
    ((byCountryRollup insertionSortStat
        [⟨"US".toList, 3⟩, ⟨[], 2⟩, ⟨"CN".toList, 9⟩, ⟨"US".toList, 1⟩, ⟨[], 5⟩]).map
      cntryStat.cntry).Nodup :=
  ⟨by decide,
    (byCountryRollup_spec insertionSortStat
      [⟨"US".toList, 3⟩, ⟨[], 2⟩, ⟨"CN".toList, 9⟩, ⟨"US".toList, 1⟩, ⟨[], 5⟩]
      ⟨by decide, by decide⟩ (by decide)).1⟩

end Ban2fail
